import Mathlib

/-!
Verification of the DTW implementation in `dtw.py`.

The source program computes Dynamic Time Warping between two integer
sequences with a Sakoe-Chiba band (`time_warp_window`) and an
upper-bound pruning optimization (`dtw_helper`), recovers the optimal
alignment path by backtracking (`trace`), and composes both (`dtw`).

Modelling choices:
  * Matrix cells live in `ℕ∞`; the numpy `inf` sentinel is `⊤`.
    The distance function returns `ℕ` (the spec's contract demands a
    non-negative scalar, and the default squared difference on integers
    is a natural number).
  * The matrix is a total function `ℕ → ℕ → ℕ∞`; `dtw_helper` only ever
    writes cells inside the (r+1)×(c+1) shape, so reads agree with the
    numpy array there.
  * The two loops of `dtw_helper` become structural recursions over the
    explicit lists of row and column indices that the Python `range`
    calls produce; the `break` statement becomes an early return.
    `buildRun` additionally records the list of cells the inner loop
    writes (ghost information used only in statements about which cells
    were filled).
  * `trace` reproduces numpy indexing exactly: a negative index wraps
    around once (`D[-1]` is the last row), an index below `-len` raises
    `IndexError`, modelled by `none`.  The loop is driven by fuel; the
    fuel `2*(r+c)+4` dominates the number of iterations any run can
    perform before exiting or raising, because every iteration decreases
    `i + j` and a read fails as soon as `i < -r` or `j < -c`.
-/

/-- Cost matrices: total functions standing for the `(r+1) × (c+1)` numpy
array; unwritten cells keep the `⊤` sentinel (`np.inf`). -/
abbrev Mat := ℕ → ℕ → ℕ∞

/-- Writing one cell of the matrix (`D[i, j] = v`). -/
def matUpd (D : Mat) (i j : ℕ) (v : ℕ∞) : Mat :=
  fun a b => if a = i ∧ b = j then v else D a b

/-- Minimum of the three predecessor values, as in
`min(D[i-1, j-1], D[i-1, j], D[i, j-1])`. -/
def min3 (a b c : ℕ∞) : ℕ∞ := min a (min b c)

/-- The value the builder writes at `(i, j)`:
`distance(t1[i-1], t2[j-1]) + min(D[i-1, j-1], D[i-1, j], D[i, j-1])`,
with the element distance abstracted into `dm`. -/
def cellVal (dm : ℕ → ℕ → ℕ) (D : Mat) (i j : ℕ) : ℕ∞ :=
  (dm i j : ℕ∞) + min3 (D (i-1) (j-1)) (D (i-1) j) (D i (j-1))

/-- Inner (column) loop of `dtw_helper`, for row `i` over the column list
`js`.  State: matrix `D`, `search_start` `ss`, `below_upper_bound`
`below`, `next_search_end` `nse`, and the ghost list `cs` of written
cells.  `se` is the previous row's `search_end` (read-only inside a
row); `ub` is the upper bound.  Returns the state after the row
(finishing the list or hitting the `break`). -/
def innerLoop (dm : ℕ → ℕ → ℕ) (ub : ℕ) (se i : ℕ) :
    List ℕ → Mat → ℕ → Bool → ℕ → List (ℕ × ℕ) → Mat × ℕ × ℕ × List (ℕ × ℕ)
  | [], D, ss, _, nse, cs => (D, ss, nse, cs)
  | j :: js, D, ss, below, nse, cs =>
    let v := cellVal dm D i j
    let D2 := matUpd D i j v
    let cs2 := cs ++ [(i, j)]
    if (ub : ℕ∞) < v then
      let ss2 := if below then ss else j + 1
      if se ≤ j then (D2, ss2, nse, cs2)
      else innerLoop dm ub se i js D2 ss2 below nse cs2
    else
      innerLoop dm ub se i js D2 ss true (j + 1) cs2

/-- Outer (row) loop of `dtw_helper` over the row list `is`.  For each
row `i` it computes `j_begin = max(search_start, i - time_warp_window)`
and `j_end = min(i + time_warp_window, c)`, runs the inner loop over
`range(j_begin, j_end + 1)`, and threads `search_start` / `search_end`
(the latter becoming `next_search_end` of the row just processed). -/
def rowsLoop (dm : ℕ → ℕ → ℕ) (ub c : ℕ) (w : ℤ) :
    List ℕ → Mat → ℕ → ℕ → List (ℕ × ℕ) → Mat × ℕ × ℕ × List (ℕ × ℕ)
  | [], D, ss, se, cs => (D, ss, se, cs)
  | i :: is, D, ss, se, cs =>
    let jb : ℕ := max ss ((i : ℤ) - w).toNat
    let je : ℤ := min ((i : ℤ) + w) (c : ℤ)
    let js : List ℕ := List.range' jb (je + 1 - jb).toNat
    match innerLoop dm ub se i js D ss false i cs with
    | (D2, ss2, nse2, cs2) => rowsLoop dm ub c w is D2 ss2 nse2 cs2

/-- Initial matrix: `D = np.full((r+1, c+1), np.inf); D[0, 0] = 0`. -/
def initMat : Mat := fun a b => if a = 0 ∧ b = 0 then 0 else ⊤

/-- Element distance seen through matrix coordinates:
`dm i j = distance(t1[i-1], t2[j-1])` (only used for `1 ≤ i ≤ r`,
`1 ≤ j ≤ c`, where the list reads are in range). -/
def distMat [Inhabited α] (t1 t2 : List α) (d : α → α → ℕ) : ℕ → ℕ → ℕ :=
  fun i j => d (t1.getD (i-1) default) (t2.getD (j-1) default)

/-- `upper_bound = sum(distance(x, y) for x, y in zip(t1, t2))`. -/
def upperBound (t1 t2 : List α) (d : α → α → ℕ) : ℕ :=
  ((t1.zip t2).map (fun p => d p.1 p.2)).sum

/-- One complete run of the matrix builder: rows `range(1, r+1)` starting
from `initMat` with `search_start = search_end = 1`. -/
def buildRun [Inhabited α] (t1 t2 : List α) (d : α → α → ℕ) (w : ℤ) :
    Mat × ℕ × ℕ × List (ℕ × ℕ) :=
  rowsLoop (distMat t1 t2 d) (upperBound t1 t2 d) t2.length w
    (List.range' 1 t1.length) initMat 1 1 []

/-- `dtw_helper(t1, t2, distance, time_warp_window)`: the returned cost
matrix. -/
def dtw_helper [Inhabited α] (t1 t2 : List α) (d : α → α → ℕ) (w : ℤ) : Mat :=
  (buildRun t1 t2 d w).1

/-- The cells `(i, j)` on which the builder executed
`D[i, j] = distance(...) + min(...)`, in execution order (ghost
information recorded alongside the run). -/
def writtenCells [Inhabited α] (t1 t2 : List α) (d : α → α → ℕ) (w : ℤ) :
    List (ℕ × ℕ) :=
  (buildRun t1 t2 d w).2.2.2

/-- Python/numpy indexing into an axis of length `n`: nonnegative indices
below `n` are themselves, negative indices from `-n` wrap around once,
anything else raises `IndexError` (`none`). -/
def pyRead (n : ℕ) (a : ℤ) : Option ℕ :=
  if 0 ≤ a ∧ a < (n : ℤ) then some a.toNat
  else if -(n : ℤ) ≤ a ∧ a < 0 then some (a + n).toNat
  else none

/-- Reading `D[a, b]` with numpy index semantics on a `(r+1) × (c+1)`
matrix. -/
def readD (r c : ℕ) (D : Mat) (a b : ℤ) : Option ℕ∞ :=
  match pyRead (r+1) a, pyRead (c+1) b with
  | some a2, some b2 => some (D a2 b2)
  | _, _ => none

/-- `np.argmin` on the triple of predecessor values: the first index
attaining the minimum. -/
def argmin3 (a b c : ℕ∞) : ℕ :=
  if a ≤ b then (if a ≤ c then 0 else 2) else (if b ≤ c then 1 else 2)

/-- The `while` loop of `trace`, with fuel.  `acc` is the deque (head =
leftmost element); each iteration prepends the chosen predecessor, as
`steps.appendleft`.  A failed read (`IndexError`) or exhausted fuel
yields `none`. -/
def traceAux (r c : ℕ) (D : Mat) :
    ℕ → ℤ → ℤ → List (ℤ × ℤ) → Option (List (ℤ × ℤ))
  | 0, _, _, _ => none
  | fuel+1, i, j, acc =>
    if i ≤ 0 ∧ j ≤ 0 then some acc
    else
      match readD r c D (i-1) (j-1), readD r c D (i-1) j, readD r c D i (j-1) with
      | some a, some b, some cc =>
        let k := argmin3 a b cc
        let ij2 := if k = 0 then (i-1, j-1) else if k = 1 then (i-1, j) else (i, j-1)
        traceAux r c D fuel ij2.1 ij2.2 (ij2 :: acc)
      | _, _, _ => none

/-- Fuel bound for `trace`: every iteration strictly decreases `i + j`,
which stays above `-(r+c)-2` before a read fails, so `2*(r+c)+4`
iterations always suffice to reach the loop's own exit or an
`IndexError`. -/
def traceFuel (r c : ℕ) : ℕ := 2*(r+c) + 4

/-- `trace(D)` for a `(r+1) × (c+1)` matrix: backtrack from `(r, c)`,
returning the alignment path (or `none` for `IndexError`). -/
def trace (r c : ℕ) (D : Mat) : Option (List (ℤ × ℤ)) :=
  traceAux r c D (traceFuel r c) r c [(r, c)]

/-- `euclian_distance(x, y) = (x - y)**2` (a natural number). -/
def euclian_distance (x y : ℤ) : ℕ := ((x - y).natAbs) ^ 2

/-- `dtw(t1, t2, time_warp_window)`: build the matrix with the default
distance, trace it, and return `(D[len(t1), len(t2)], steps, D)`; `none`
when `trace` raises. -/
def dtw (t1 t2 : List ℤ) (w : ℤ) : Option (ℕ∞ × List (ℤ × ℤ) × Mat) :=
  let D := dtw_helper t1 t2 euclian_distance w
  match trace t1.length t2.length D with
  | none => none
  | some steps => some (D t1.length t2.length, steps, D)

/-- One row of the unrestricted DTW recurrence: row `i ≥ 1` as a function
of column `j`, given the previous row `prev`.  (Helper for `dtwFull`,
written row-recursively so that the definition is structurally recursive
and evaluates by kernel reduction.) -/
def dtwFullRow (dm : ℕ → ℕ → ℕ) (i : ℕ) (prev : ℕ → ℕ∞) : ℕ → ℕ∞
  | 0 => ⊤
  | j+1 => (dm i (j+1) : ℕ∞) +
      min3 (prev j) (prev (j+1)) (dtwFullRow dm i prev j)

/-- Rows of the unrestricted DTW recurrence (helper for `dtwFull`). -/
def dtwFullRows (dm : ℕ → ℕ → ℕ) : ℕ → ℕ → ℕ∞
  | 0 => fun j => if j = 0 then 0 else ⊤
  | i+1 => dtwFullRow dm (i+1) (dtwFullRows dm i)

/-- Spec-side definition (refinement reference for C1): the unrestricted
DTW recurrence, no window and no pruning.  `D[0,0] = 0`, the rest of row
and column zero are unreachable, and for `i, j ≥ 1`
`D[i,j] = dist(i,j) + min(D[i-1,j-1], D[i-1,j], D[i,j-1])` — see the
defining equations `dtwFull_zero_zero`, `dtwFull_row_zero`,
`dtwFull_col_zero` and `dtwFull_succ_succ` below. -/
def dtwFull (dm : ℕ → ℕ → ℕ) (i j : ℕ) : ℕ∞ := dtwFullRows dm i j

/-- One row of the window-restricted (but pruning-free) DTW recurrence:
row `i ≥ 1` as a function of the column, given the previous row `prev`.
A cell is computed only inside the Sakoe-Chiba band
`i - w ≤ j ≤ i + w`; outside the band it is unreachable (`⊤`).
(Helper for `dtwWin`.) -/
def dtwWinRow (dm : ℕ → ℕ → ℕ) (w : ℤ) (i : ℕ) (prev : ℕ → ℕ∞) : ℕ → ℕ∞
  | 0 => ⊤
  | j+1 =>
    if (i : ℤ) - w ≤ (j : ℤ) + 1 ∧ (j : ℤ) + 1 ≤ (i : ℤ) + w then
      (dm i (j+1) : ℕ∞) +
        min3 (prev j) (prev (j+1)) (dtwWinRow dm w i prev j)
    else ⊤

/-- Rows of the window-restricted recurrence (helper for `dtwWin`). -/
def dtwWinRows (dm : ℕ → ℕ → ℕ) (w : ℤ) : ℕ → ℕ → ℕ∞
  | 0 => fun j => if j = 0 then 0 else ⊤
  | i+1 => dtwWinRow dm w (i+1) (dtwWinRows dm w i)

/-- Reference definition for the window-monotonicity analysis: the DTW
recurrence restricted to the Sakoe-Chiba band of half-width `w` but with
no upper-bound pruning.  `D[0,0] = 0`, the rest of row and column zero
and every out-of-band cell are unreachable, and for in-band `i, j ≥ 1`
`D[i,j] = dist(i,j) + min(D[i-1,j-1], D[i-1,j], D[i,j-1])`. -/
def dtwWin (dm : ℕ → ℕ → ℕ) (w : ℤ) (i j : ℕ) : ℕ∞ := dtwWinRows dm w i j

/-- Distance table of the window-monotonicity counterexample, row-major
6 × 3 (the distance of the `a`-th element of the first sequence and the
`b`-th element of the second is `tblC9[a * 3 + b]`). -/
def tblC9 : List ℕ := [0, 0, 0, 2, 1, 0, 0, 0, 1, 0, 2, 2, 0, 1, 0, 0, 1, 0]

/-- Element distance realizing `tblC9` on index sequences. -/
def dC9 : ℕ → ℕ → ℕ := fun a b => tblC9.getD (a * 3 + b) 0

/-- First sequence of the window-monotonicity counterexample (indices
`0..5`). -/
def T1c9 : List ℕ := [0, 1, 2, 3, 4, 5]

/-- Second sequence of the window-monotonicity counterexample (indices
`0..2`). -/
def T2c9 : List ℕ := [0, 1, 2]

/-- A single forward step of an alignment path: the coordinates grow by
`(+1,+1)`, `(+1,0)` or `(0,+1)`. -/
def Step (p q : ℤ × ℤ) : Prop :=
  (q.1 = p.1 + 1 ∧ q.2 = p.2 + 1) ∨ (q.1 = p.1 + 1 ∧ q.2 = p.2) ∨
    (q.1 = p.1 ∧ q.2 = p.2 + 1)

instance (p q : ℤ × ℤ) : Decidable (Step p q) := by
  unfold Step
  infer_instance

/-- C2: on the reference fixture T1 = [1,3,4,9,8,2,1,5,7,3],
T2 = [1,6,2,3,0,9,4,3,6,3], `dtw` with window 5 returns final cost
`D[10,10] = 37` together with exactly the path
(0,0),(1,1),(2,2),(2,3),(2,4),(3,5),(4,6),(5,6),(6,7),(7,8),(8,9),(9,9),(10,10),
and window 10 also returns final cost 37. -/
theorem C2_fixture_cost_and_path :
    (dtw [1,3,4,9,8,2,1,5,7,3] [1,6,2,3,0,9,4,3,6,3] 5).map (fun x => (x.1, x.2.1)) =
      some ((37 : ℕ∞),
        [(0,0),(1,1),(2,2),(2,3),(2,4),(3,5),(4,6),(5,6),(6,7),(7,8),(8,9),(9,9),(10,10)]) ∧
    (dtw [1,3,4,9,8,2,1,5,7,3] [1,6,2,3,0,9,4,3,6,3] 10).map (fun x => x.1) =
      some (37 : ℕ∞) := by
  constructor
  · rfl
  · rfl

/-- C4 (code bug): the tracer does not treat out-of-range predecessors as
`+∞`; numpy negative indexing wraps around.  On the matrix built from
`t1 = [0]`, `t2 = []` (window 1) the tracer at cell `(1, 0)` reads the
wrapped cells `D[0, -1] = D[0, 0] = 0` and `D[1, -1] = D[1, 0]`, picks
the diagonal, and returns the path `[(0, -1), (1, 0)]`, which leaves the
matrix instead of starting at `(0, 0)`. -/
theorem C4_wraparound_eval :
    trace 1 0 (dtw_helper ([0] : List ℤ) [] euclian_distance 1) =
      some [(0, -1), (1, 0)] := by
  rfl

/-- C6: `np.argmin` returns the first index attaining the minimum, so the
tracer prefers the diagonal predecessor whenever it attains the minimum,
and the vertical one whenever it attains the minimum but the diagonal
one does not; the horizontal predecessor is chosen only when it is
strictly smaller than both others.  In particular all ties are broken
diagonal-first, then vertical. -/
theorem C6_argmin_first_min (a b c : ℕ∞) :
    (a ≤ b → a ≤ c → argmin3 a b c = 0) ∧
    (b < a → b ≤ c → argmin3 a b c = 1) ∧
    (c < a → c < b → argmin3 a b c = 2) := by
  refine ⟨fun h1 h2 => ?_, fun h1 h2 => ?_, fun h1 h2 => ?_⟩
  · simp [argmin3, h1, h2]
  · have h3 : ¬ a ≤ b := not_le.mpr h1
    simp [argmin3, h3, h2]
  · have h3 : ¬ a ≤ c := not_le.mpr h1
    by_cases h4 : a ≤ b
    · simp [argmin3, h4, h3]
    · have h5 : ¬ b ≤ c := not_le.mpr h2
      simp [argmin3, h4, h5]

/-- C6 witness: at the concrete triples `(5, 5, 5)` and `(7, 5, 5)` the
tracer picks the diagonal resp. the vertical predecessor. -/
theorem C6_argmin_first_min_witness :
    argmin3 5 5 5 = 0 ∧ argmin3 7 5 5 = 1 :=
  ⟨(C6_argmin_first_min 5 5 5).1 (le_refl _) (le_refl _),
   (C6_argmin_first_min 7 5 5).2.1 (by decide) (le_refl _)⟩

/-- C7 (code bug): `dtw_helper` performs no validation of
`time_warp_window` at all.  Called with the negative window `-1` on
`t1 = t2 = [0]` it does not fail; it runs to completion and returns the
initial matrix (every per-row column range is empty), instead of
rejecting the input as the spec demands. -/
theorem C7_negative_window_not_rejected :
    dtw_helper ([0] : List ℤ) ([0] : List ℤ) euclian_distance (-1) = initMat := by
  rfl

/-- C8 (code bug): when the final cell is unreachable the top-level `dtw`
returns the `+∞` sentinel in the cost position of its result tuple, not
a distinct "no alignment" outcome.  Concretely for `t1 = [0,0]`,
`t2 = [0]`, window 0 the final cell is `+∞` and `dtw` returns it as the
cost together with a traced path. -/
theorem C8_infinity_returned_as_cost :
    (dtw [0, 0] [0] 0).map (fun x => (x.1, x.2.1)) =
      some ((⊤ : ℕ∞), [(0, 0), (1, 1), (2, 1)]) := by
  rfl

/-- C1 counterexample: with `t1 = [0,1,1]`, `t2 = [0]` and
`time_warp_window = 3 = max(len t1, len t2)`, the builder prunes the
whole third row (the zip upper bound is 0, but the true optimum is 2),
so the final cell is `+∞` while the unrestricted recurrence gives 2. -/
theorem C1_counterexample :
    dtw_helper ([0, 1, 1] : List ℤ) ([0] : List ℤ) euclian_distance 3 3 1 = ⊤ ∧
    dtwFull (distMat ([0, 1, 1] : List ℤ) ([0] : List ℤ) euclian_distance) 3 1 =
      (2 : ℕ∞) ∧
    (3 : ℤ) = max (([0, 1, 1] : List ℤ).length : ℤ) (([0] : List ℤ).length : ℤ) := by
  exact ⟨rfl, by decide, by decide⟩

/-- C10 counterexample: with the negative window `-1`, `t1 = [0,0,0,0]`
and `t2 = [0]` (both non-empty), `dtw` does not return an infinite cost:
the tracer walks off the all-infinite matrix and raises `IndexError`
(reading column index `-3` of a 2-column matrix), so the call fails. -/
theorem C10_counterexample :
    dtw [0, 0, 0, 0] [0] (-1) = none := by
  rfl

/-- Defining equation of `dtwFull`: the origin costs 0. -/
theorem dtwFull_zero_zero (dm : ℕ → ℕ → ℕ) : dtwFull dm 0 0 = 0 := rfl

/-- Defining equation of `dtwFull`: the rest of row zero is unreachable. -/
theorem dtwFull_row_zero (dm : ℕ → ℕ → ℕ) (j : ℕ) : dtwFull dm 0 (j+1) = ⊤ := rfl

/-- Defining equation of `dtwFull`: the rest of column zero is
unreachable. -/
theorem dtwFull_col_zero (dm : ℕ → ℕ → ℕ) (i : ℕ) : dtwFull dm (i+1) 0 = ⊤ := rfl

/-- Defining equation of `dtwFull`: the interior recurrence. -/
theorem dtwFull_succ_succ (dm : ℕ → ℕ → ℕ) (i j : ℕ) :
    dtwFull dm (i+1) (j+1) = (dm (i+1) (j+1) : ℕ∞) +
      min3 (dtwFull dm i j) (dtwFull dm i (j+1)) (dtwFull dm (i+1) j) := rfl

/-- Backtracking invariant: whatever `traceAux` returns extends the
accumulator, which always has the current cell at its head, by a chain
of unit steps, and stops only at a cell with both coordinates `≤ 0`. -/
theorem traceAux_shape (r c : ℕ) (D : Mat) :
    ∀ (fuel : ℕ) (i j : ℤ) (acc p : List (ℤ × ℤ)),
      traceAux r c D fuel i j acc = some p →
      acc.head? = some (i, j) → List.Chain' Step acc →
      List.Chain' Step p ∧ p.getLast? = acc.getLast? ∧
        ∃ q : ℤ × ℤ, p.head? = some q ∧ q.1 ≤ 0 ∧ q.2 ≤ 0 := by
  intro fuel
  induction fuel with
  | zero => intro i j acc p hp; exact absurd hp (by simp [traceAux])
  | succ fuel ih =>
    intro i j acc p hp hhead hchain
    rw [traceAux] at hp
    by_cases hstop : i ≤ 0 ∧ j ≤ 0
    · rw [if_pos hstop] at hp
      have hap : acc = p := Option.some_inj.mp hp
      subst hap
      exact ⟨hchain, rfl, (i, j), hhead, hstop.1, hstop.2⟩
    · rw [if_neg hstop] at hp
      rcases hra : readD r c D (i-1) (j-1) with _ | a <;> rw [hra] at hp
      · exact absurd hp (by simp)
      rcases hrb : readD r c D (i-1) j with _ | b <;> rw [hrb] at hp
      · exact absurd hp (by simp)
      rcases hrc : readD r c D i (j-1) with _ | cc <;> rw [hrc] at hp
      · exact absurd hp (by simp)
      simp only at hp
      obtain ⟨a0, as, rfl⟩ : ∃ a0 as, acc = a0 :: as := by
        cases acc with
        | nil => exact absurd hhead (by simp)
        | cons a0 as => exact ⟨a0, as, rfl⟩
      have ha0 : a0 = (i, j) := by simpa using hhead
      set ij2 : ℤ × ℤ :=
        if argmin3 a b cc = 0 then (i-1, j-1)
        else if argmin3 a b cc = 1 then (i-1, j) else (i, j-1) with hij2
      have hstep : Step ij2 (i, j) := by
        by_cases h0 : argmin3 a b cc = 0
        · rw [hij2]; rw [if_pos h0]; exact Or.inl ⟨by ring, by ring⟩
        · by_cases h1 : argmin3 a b cc = 1
          · rw [hij2]; rw [if_neg h0, if_pos h1]
            exact Or.inr (Or.inl ⟨by ring, rfl⟩)
          · rw [hij2]; rw [if_neg h0, if_neg h1]
            exact Or.inr (Or.inr ⟨rfl, by ring⟩)
      have hrec := ih ij2.1 ij2.2 (ij2 :: a0 :: as) p ?_ rfl ?_
      · obtain ⟨hc, hl, q, hq⟩ := hrec
        refine ⟨hc, ?_, q, hq⟩
        rw [hl, List.getLast?_cons_cons]
      · exact hp
      · exact List.Chain'.cons (ha0 ▸ hstep) hchain

/-- C5: if the tracer, run on a matrix produced by the builder, returns a
path all of whose cells are inside the matrix and finite (backtracking
never passes through a `+∞` cell), then the path starts at `(0,0)`, ends
at `(len t1, len t2)`, and consecutive coordinates read forward differ
by exactly one of (+1,+1), (+1,0), (0,+1) — in particular both
coordinates are monotonically non-decreasing. -/
theorem C5_trace_path_shape [Inhabited α] (t1 t2 : List α) (d : α → α → ℕ)
    (w : ℤ) (p : List (ℤ × ℤ))
    (hp : trace t1.length t2.length (dtw_helper t1 t2 d w) = some p)
    (hin : ∀ q ∈ p, 0 ≤ q.1 ∧ q.1 ≤ (t1.length : ℤ) ∧ 0 ≤ q.2 ∧
      q.2 ≤ (t2.length : ℤ) ∧ dtw_helper t1 t2 d w q.1.toNat q.2.toNat ≠ ⊤) :
    p.head? = some (0, 0) ∧
      p.getLast? = some ((t1.length : ℤ), (t2.length : ℤ)) ∧
      List.Chain' Step p := by
  unfold trace at hp
  obtain ⟨hc, hl, q, hq, hq1, hq2⟩ :=
    traceAux_shape _ _ _ _ _ _ _ _ hp rfl (List.chain'_singleton _)
  have hqmem : q ∈ p := List.mem_of_mem_head? hq
  obtain ⟨hge1, -, hge2, -, -⟩ := hin q hqmem
  have hq0 : q = (0, 0) := by
    obtain ⟨x, y⟩ := q
    simp only [Prod.mk.injEq]
    constructor <;> omega
  refine ⟨hq0 ▸ hq, ?_, hc⟩
  rw [hl]
  rfl

/-- C5 witness: the reference fixture at window 5.  The traced path stays
inside the matrix on finite cells, and the conclusion follows from
`C5_trace_path_shape` at that input. -/
theorem C5_trace_path_shape_witness :
    ([((0:ℤ),(0:ℤ)),(1,1),(2,2),(2,3),(2,4),(3,5),(4,6),(5,6),(6,7),(7,8),(8,9),(9,9),(10,10)] :
        List (ℤ × ℤ)).head? = some (0, 0) ∧
      ([((0:ℤ),(0:ℤ)),(1,1),(2,2),(2,3),(2,4),(3,5),(4,6),(5,6),(6,7),(7,8),(8,9),(9,9),(10,10)] :
        List (ℤ × ℤ)).getLast? =
        some ((([1,3,4,9,8,2,1,5,7,3] : List ℤ).length : ℤ),
          (([1,6,2,3,0,9,4,3,6,3] : List ℤ).length : ℤ)) ∧
      List.Chain' Step
        ([((0:ℤ),(0:ℤ)),(1,1),(2,2),(2,3),(2,4),(3,5),(4,6),(5,6),(6,7),(7,8),(8,9),(9,9),(10,10)] :
          List (ℤ × ℤ)) :=
  C5_trace_path_shape [1,3,4,9,8,2,1,5,7,3] [1,6,2,3,0,9,4,3,6,3] euclian_distance 5
    [((0:ℤ),(0:ℤ)),(1,1),(2,2),(2,3),(2,4),(3,5),(4,6),(5,6),(6,7),(7,8),(8,9),(9,9),(10,10)]
    (by rfl) (by decide)

/-- With a negative window every per-row column range
`range(max(search_start, i - w), min(i + w, c) + 1)` is empty, so the
row loop never writes a cell and returns its input matrix. -/
theorem rowsLoop_neg_window (dm : ℕ → ℕ → ℕ) (ub c : ℕ) (w : ℤ) (hw : w < 0) :
    ∀ (is : List ℕ), (∀ i ∈ is, 1 ≤ i) →
      ∀ (D : Mat) (ss se : ℕ) (cs : List (ℕ × ℕ)),
        rowsLoop dm ub c w is D ss se cs = (D, ss, se, cs) ∨
        ∃ se2, rowsLoop dm ub c w is D ss se cs = (D, ss, se2, cs) := by
  intro is
  induction is with
  | nil => intro _ D ss se cs; exact Or.inl rfl
  | cons i is ih =>
    intro his D ss se cs
    have hi : 1 ≤ i := his i (List.mem_cons_self i is)
    have hjs : (((min ((i : ℤ) + w) (c : ℤ)) + 1 -
        (max ss ((i : ℤ) - w).toNat : ℕ)).toNat : ℕ) = 0 := by
      rw [Int.toNat_eq_zero]
      have h1 : ((i : ℤ) - w).toNat = (i : ℤ) - w := by
        rw [Int.toNat_of_nonneg]
        omega
      have h2 : (((max ss ((i : ℤ) - w).toNat : ℕ) : ℤ)) ≥ ((i : ℤ) - w).toNat := by
        exact_mod_cast Nat.le_max_right ss _
      have h3 : min ((i : ℤ) + w) (c : ℤ) ≤ (i : ℤ) + w := min_le_left _ _
      omega
    rw [rowsLoop]
    simp only [hjs, List.range'_zero]
    rw [innerLoop]
    rcases ih (fun x hx => his x (List.mem_cons_of_mem i hx)) D ss i cs with h | ⟨se2, h⟩
    · exact Or.inr ⟨i, h⟩
    · exact Or.inr ⟨se2, h⟩

/-- A negative window leaves the initial matrix unchanged: only
`D[0,0] = 0` is finite. -/
theorem dtw_helper_neg_window [Inhabited α] (t1 t2 : List α) (d : α → α → ℕ)
    (w : ℤ) (hw : w < 0) : dtw_helper t1 t2 d w = initMat := by
  unfold dtw_helper buildRun
  have h1 : ∀ i ∈ List.range' 1 t1.length, 1 ≤ i := by
    intro i hi
    rw [List.mem_range'] at hi
    omega
  rcases rowsLoop_neg_window (distMat t1 t2 d) (upperBound t1 t2 d) t2.length w hw
      (List.range' 1 t1.length) h1 initMat 1 1 [] with h | ⟨se2, h⟩ <;> rw [h]

/-- Reading an in-shape cell with numpy indexing returns the cell. -/
theorem readD_coe (r c : ℕ) (D : Mat) (a b : ℕ) (ha : a ≤ r) (hb : b ≤ c) :
    readD r c D (a : ℤ) (b : ℤ) = some (D a b) := by
  unfold readD pyRead
  have h1 : (0 : ℤ) ≤ (a : ℤ) ∧ (a : ℤ) < ((r+1 : ℕ) : ℤ) := by
    constructor
    · exact Int.natCast_nonneg a
    · exact_mod_cast Nat.lt_succ_of_le ha
  have h2 : (0 : ℤ) ≤ (b : ℤ) ∧ (b : ℤ) < ((c+1 : ℕ) : ℤ) := by
    constructor
    · exact Int.natCast_nonneg b
    · exact_mod_cast Nat.lt_succ_of_le hb
  rw [if_pos h1, if_pos h2]
  simp

/-- On the untouched initial matrix of a square shape, the tracer walks
the diagonal down to the origin and terminates: from `(k, k)` every
predecessor triple is all-`⊤` (or has the origin on the diagonal slot),
so `argmin` always picks the diagonal. -/
theorem traceAux_initMat_diag (n : ℕ) (hn : 1 ≤ n) :
    ∀ (k fuel : ℕ), 1 ≤ k → k ≤ n → k + 2 ≤ fuel → ∀ acc : List (ℤ × ℤ),
      ∃ p, traceAux n n initMat fuel (k : ℤ) (k : ℤ) acc = some p := by
  intro k
  induction k with
  | zero => intro fuel h; omega
  | succ k ih =>
    intro fuel _ hkn hfuel acc
    obtain ⟨f, rfl⟩ : ∃ f, fuel = f + 1 := ⟨fuel - 1, by omega⟩
    rw [traceAux]
    have hne : ¬ (((k+1 : ℕ) : ℤ) ≤ 0 ∧ ((k+1 : ℕ) : ℤ) ≤ 0) := by
      intro h
      have := h.1
      omega
    rw [if_neg hne]
    have hcast : ((k+1 : ℕ) : ℤ) - 1 = (k : ℤ) := by push_cast; ring
    rw [hcast]
    rw [readD_coe n n initMat k k (by omega) (by omega),
      readD_coe n n initMat (k+1) k (by omega) (by omega)]
    have hread2 : readD n n initMat (k : ℤ) ((k+1 : ℕ) : ℤ) =
        some (initMat k (k+1)) := readD_coe n n initMat k (k+1) (by omega) hkn
    rw [hread2]
    simp only
    rcases Nat.eq_zero_or_pos k with hk0 | hkpos
    · subst hk0
      have hargmin : argmin3 (initMat 0 0) (initMat 0 1) (initMat 1 0) = 0 := by
        decide
      rw [hargmin]
      simp only [if_true]
      obtain ⟨f2, rfl⟩ : ∃ f2, f = f2 + 1 := ⟨f - 1, by omega⟩
      rw [traceAux]
      have hc0 : ((0:ℕ):ℤ) ≤ 0 ∧ ((0:ℕ):ℤ) ≤ 0 := by norm_num
      rw [if_pos hc0]
      exact ⟨_, rfl⟩
    · have hargmin : argmin3 (initMat k k) (initMat k (k+1)) (initMat (k+1) k) = 0 := by
        have h1 : initMat k k = ⊤ := by
          unfold initMat
          rw [if_neg]
          intro h
          omega
        have h2 : initMat k (k+1) = ⊤ := by
          unfold initMat
          rw [if_neg]
          intro h
          omega
        have h3 : initMat (k+1) k = ⊤ := by
          unfold initMat
          rw [if_neg]
          intro h
          exact absurd h.1 (by omega)
        rw [h1, h2, h3]
        decide
      rw [hargmin]
      simp only [if_true]
      exact ih f hkpos (by omega) (by omega) (((k : ℤ), (k : ℤ)) :: acc)

/-- C10 (amended): with a negative window the builder raises no error and
returns the matrix whose only finite entry is `D[0,0] = 0` (every
per-row column range is empty); consequently `dtw` returns cost `+∞`
whenever its tracer terminates — in particular on non-empty inputs of
equal length, where the tracer walks the diagonal.  (As stated for all
non-empty inputs the claim is false: see the counterexample, where the
tracer raises `IndexError` instead.) -/
theorem C10_negative_window_behavior (t1 t2 : List ℤ) (w : ℤ) (hw : w < 0) :
    dtw_helper t1 t2 euclian_distance w = initMat ∧
      (t1.length = t2.length → 1 ≤ t1.length →
        ∃ p, dtw t1 t2 w = some ((⊤ : ℕ∞), p, initMat)) := by
  have hD := dtw_helper_neg_window t1 t2 euclian_distance w hw
  refine ⟨hD, fun hlen hpos => ?_⟩
  have hstep : dtw t1 t2 w =
      match trace t1.length t2.length initMat with
      | none => none
      | some steps => some (initMat t1.length t2.length, steps, initMat) := by
    unfold dtw
    rw [hD]
  obtain ⟨p, hp⟩ := traceAux_initMat_diag t1.length hpos t1.length
    (traceFuel t1.length t1.length) hpos (le_refl _)
    (by unfold traceFuel; omega) [((t1.length : ℤ), (t1.length : ℤ))]
  refine ⟨p, ?_⟩
  rw [hstep]
  unfold trace
  rw [← hlen]
  rw [hp]
  have htop : initMat t1.length t1.length = ⊤ := by
    unfold initMat
    rw [if_neg]
    intro h
    omega
  rw [htop]

/-- C10 witness: at `t1 = [5]`, `t2 = [7]`, window `-1`, `dtw` returns
the infinite cost (with the all-infinite matrix and a diagonal path). -/
theorem C10_negative_window_behavior_witness :
    dtw_helper [5] [7] euclian_distance (-1) = initMat ∧
      ∃ p, dtw [5] [7] (-1) = some ((⊤ : ℕ∞), p, initMat) :=
  ⟨(C10_negative_window_behavior [5] [7] (-1) (by norm_num)).1,
   (C10_negative_window_behavior [5] [7] (-1) (by norm_num)).2 rfl (by norm_num)⟩

/-- `range'` with step 1 is strictly increasing. -/
theorem range'_pairwise_lt : ∀ (n s : ℕ), (List.range' s n).Pairwise (· < ·) := by
  intro n
  induction n with
  | zero => intro s; simp
  | succ n ih =>
    intro s
    rw [List.range'_succ]
    refine List.Pairwise.cons ?_ (ih (s+1))
    intro x hx
    rw [List.mem_range'] at hx
    omega

/-- Rewriting the written cell does not change the value the recurrence
assigns to it (its three predecessors are other cells). -/
theorem cellVal_matUpd (dm : ℕ → ℕ → ℕ) (D : Mat) (i j : ℕ) (v : ℕ∞)
    (hi : 1 ≤ i) (hj : 1 ≤ j) :
    cellVal dm (matUpd D i j v) i j = cellVal dm D i j := by
  unfold cellVal matUpd
  have h1 : ¬ (i - 1 = i ∧ j - 1 = j) := by intro h; omega
  have h2 : ¬ (i - 1 = i ∧ j = j) := by intro h; omega
  have h3 : ¬ (i = i ∧ j - 1 = j) := by intro h; omega
  rw [if_neg h1, if_neg h2, if_neg h3]

/-- The inner loop keeps `search_start` positive. -/
theorem innerLoop_ss_pos (dm : ℕ → ℕ → ℕ) (ub se i : ℕ) :
    ∀ (js : List ℕ) (D : Mat) (ss : ℕ) (below : Bool) (nse : ℕ)
      (cs : List (ℕ × ℕ)), 1 ≤ ss →
      1 ≤ (innerLoop dm ub se i js D ss below nse cs).2.1 := by
  intro js
  induction js with
  | nil => intro D ss below nse cs hss; exact hss
  | cons j js ih =>
    intro D ss below nse cs hss
    rw [innerLoop]
    by_cases hv : (ub : ℕ∞) < cellVal dm D i j
    · rw [if_pos hv]
      by_cases hse : se ≤ j
      · rw [if_pos hse]
        cases below <;> simp <;> omega
      · rw [if_neg hse]
        apply ih
        cases below <;> simp <;> omega
    · rw [if_neg hv]
      exact ih _ _ _ _ _ hss

/-- What the inner loop writes: only cells `(i, j)` with `j` in its
column list, each recorded in the ghost list, every other cell
untouched; and each written cell satisfies the recurrence against the
loop's final matrix (its predecessors are written before it and never
rewritten). -/
theorem innerLoop_writes (dm : ℕ → ℕ → ℕ) (ub se i : ℕ) (hi : 1 ≤ i) :
    ∀ (js : List ℕ) (D : Mat) (ss : ℕ) (below : Bool) (nse : ℕ)
      (cs : List (ℕ × ℕ)),
      js.Pairwise (· < ·) → (∀ j ∈ js, 1 ≤ j) →
      ∃ ws : List (ℕ × ℕ),
        (innerLoop dm ub se i js D ss below nse cs).2.2.2 = cs ++ ws ∧
        (∀ q ∈ ws, q.1 = i ∧ q.2 ∈ js) ∧
        (∀ a b, (a, b) ∉ ws →
          (innerLoop dm ub se i js D ss below nse cs).1 a b = D a b) ∧
        (∀ q ∈ ws, (innerLoop dm ub se i js D ss below nse cs).1 q.1 q.2 =
          cellVal dm (innerLoop dm ub se i js D ss below nse cs).1 q.1 q.2) := by
  intro js
  induction js with
  | nil =>
    intro D ss below nse cs _ _
    exact ⟨[], by simp [innerLoop], by simp, fun a b _ => rfl, by simp⟩
  | cons j js ih =>
    intro D ss below nse cs hpair hpos
    have hj1 : 1 ≤ j := hpos j (List.mem_cons_self j js)
    have hjlt : ∀ x ∈ js, j < x := (List.pairwise_cons.mp hpair).1
    have hpair' : js.Pairwise (· < ·) := (List.pairwise_cons.mp hpair).2
    have hpos' : ∀ x ∈ js, 1 ≤ x := fun x hx => hpos x (List.mem_cons_of_mem j hx)
    set v := cellVal dm D i j with hv_def
    set D2 := matUpd D i j v with hD2_def
    -- shared treatment of the two recursive continuations
    have key : ∀ (ss3 : ℕ) (below3 : Bool) (nse3 : ℕ),
        ∃ ws : List (ℕ × ℕ),
          (innerLoop dm ub se i js D2 ss3 below3 nse3 (cs ++ [(i, j)])).2.2.2 =
            cs ++ ((i, j) :: ws) ∧
          (∀ q ∈ (i, j) :: ws, q.1 = i ∧ q.2 ∈ j :: js) ∧
          (∀ a b, (a, b) ∉ (i, j) :: ws →
            (innerLoop dm ub se i js D2 ss3 below3 nse3 (cs ++ [(i, j)])).1 a b =
              D a b) ∧
          (∀ q ∈ (i, j) :: ws,
            (innerLoop dm ub se i js D2 ss3 below3 nse3 (cs ++ [(i, j)])).1 q.1 q.2 =
              cellVal dm
                (innerLoop dm ub se i js D2 ss3 below3 nse3 (cs ++ [(i, j)])).1
                q.1 q.2) := by
      intro ss3 below3 nse3
      obtain ⟨ws, h1, h2, h3, h4⟩ := ih D2 ss3 below3 nse3 (cs ++ [(i, j)]) hpair' hpos'
      set R := innerLoop dm ub se i js D2 ss3 below3 nse3 (cs ++ [(i, j)]) with hR
      have hjws : (i, j) ∉ ws := by
        intro hmem
        exact absurd ((h2 (i, j) hmem).2) (by intro h; exact absurd (hjlt j h) (by omega))
      have hRij : R.1 i j = v := by
        rw [h3 i j hjws]
        unfold_let D2
        unfold matUpd
        rw [if_pos ⟨rfl, rfl⟩]
      have hpred1 : R.1 (i-1) (j-1) = D (i-1) (j-1) := by
        rw [h3 (i-1) (j-1) (by intro hm; exact absurd ((h2 _ hm).1) (by omega))]
        unfold_let D2
        unfold matUpd
        rw [if_neg (by intro h; omega)]
      have hpred2 : R.1 (i-1) j = D (i-1) j := by
        rw [h3 (i-1) j (by intro hm; exact absurd ((h2 _ hm).1) (by omega))]
        unfold_let D2
        unfold matUpd
        rw [if_neg (by intro h; omega)]
      have hpred3 : R.1 i (j-1) = D i (j-1) := by
        rw [h3 i (j-1) (by
          intro hm
          have := (h2 _ hm).2
          exact absurd (hjlt _ this) (by omega))]
        unfold_let D2
        unfold matUpd
        rw [if_neg (by intro h; omega)]
      refine ⟨ws, by rw [h1]; simp, ?_, ?_, ?_⟩
      · intro q hq
        rcases List.mem_cons.mp hq with rfl | hq2
        · exact ⟨rfl, List.mem_cons_self j js⟩
        · exact ⟨(h2 q hq2).1, List.mem_cons_of_mem j (h2 q hq2).2⟩
      · intro a b hab
        have hab1 : (a, b) ≠ (i, j) := fun h => hab (h ▸ List.mem_cons_self _ _)
        have hab2 : (a, b) ∉ ws := fun h => hab (List.mem_cons_of_mem _ h)
        rw [h3 a b hab2]
        unfold_let D2
        unfold matUpd
        rw [if_neg (by intro h; exact hab1 (by rw [h.1, h.2]))]
      · intro q hq
        rcases List.mem_cons.mp hq with rfl | hq2
        · rw [hRij]
          unfold cellVal
          rw [hpred1, hpred2, hpred3]
          exact hv_def
        · exact h4 q hq2
    rw [innerLoop]
    by_cases hvlt : (ub : ℕ∞) < v
    · rw [if_pos hvlt]
      by_cases hse : se ≤ j
      · rw [if_pos hse]
        refine ⟨[(i, j)], by simp, ?_, ?_, ?_⟩
        · intro q hq
          rcases List.mem_cons.mp hq with rfl | hq2
          · exact ⟨rfl, List.mem_cons_self j js⟩
          · exact absurd hq2 (List.not_mem_nil q)
        · intro a b hab
          have hab1 : (a, b) ≠ (i, j) := by
            intro h
            exact hab (h ▸ List.mem_cons_self _ _)
          show D2 a b = D a b
          unfold_let D2
          unfold matUpd
          rw [if_neg (by intro h; exact hab1 (by rw [h.1, h.2]))]
        · intro q hq
          rcases List.mem_cons.mp hq with rfl | hq2
          · show D2 i j = cellVal dm D2 i j
            rw [cellVal_matUpd dm D i j v hi hj1]
            unfold_let D2
            unfold matUpd
            rw [if_pos ⟨rfl, rfl⟩]
          · exact absurd hq2 (List.not_mem_nil q)
      · rw [if_neg hse]
        obtain ⟨ws, h1, h2, h3, h4⟩ := key (if below then ss else j + 1) below nse
        exact ⟨(i, j) :: ws, h1, h2, h3, h4⟩
    · rw [if_neg hvlt]
      obtain ⟨ws, h1, h2, h3, h4⟩ := key ss true (j + 1)
      exact ⟨(i, j) :: ws, h1, h2, h3, h4⟩

/-- What the whole row loop writes: cells with row index in its row list
and column in `[1, c]`, every other cell untouched, and each written
cell satisfies the recurrence against the final matrix (later rows never
touch a written cell or its predecessors). -/
theorem rowsLoop_writes (dm : ℕ → ℕ → ℕ) (ub c : ℕ) (w : ℤ) :
    ∀ (is : List ℕ) (D : Mat) (ss se : ℕ) (cs : List (ℕ × ℕ)),
      is.Pairwise (· < ·) → (∀ i ∈ is, 1 ≤ i) → 1 ≤ ss →
      ∃ ws : List (ℕ × ℕ),
        (rowsLoop dm ub c w is D ss se cs).2.2.2 = cs ++ ws ∧
        (∀ q ∈ ws, q.1 ∈ is ∧ 1 ≤ q.2 ∧ q.2 ≤ c) ∧
        (∀ a b, (a, b) ∉ ws → (rowsLoop dm ub c w is D ss se cs).1 a b = D a b) ∧
        (∀ q ∈ ws, (rowsLoop dm ub c w is D ss se cs).1 q.1 q.2 =
          cellVal dm (rowsLoop dm ub c w is D ss se cs).1 q.1 q.2) := by
  intro is
  induction is with
  | nil =>
    intro D ss se cs _ _ _
    exact ⟨[], by simp [rowsLoop], by simp, fun a b _ => rfl, by simp⟩
  | cons i is ih =>
    intro D ss se cs hpair hpos hss
    have hi1 : 1 ≤ i := hpos i (List.mem_cons_self i is)
    have hilt : ∀ x ∈ is, i < x := (List.pairwise_cons.mp hpair).1
    have hpair' : is.Pairwise (· < ·) := (List.pairwise_cons.mp hpair).2
    have hpos' : ∀ x ∈ is, 1 ≤ x := fun x hx => hpos x (List.mem_cons_of_mem i hx)
    rw [rowsLoop]
    set jb : ℕ := max ss ((i : ℤ) - w).toNat with hjb
    set je : ℤ := min ((i : ℤ) + w) (c : ℤ) with hje
    set js : List ℕ := List.range' jb (je + 1 - jb).toNat with hjs
    have hjs_pos : ∀ j ∈ js, 1 ≤ j := by
      intro j hj
      rw [hjs, List.mem_range'] at hj
      obtain ⟨k, -, rfl⟩ := hj
      have : ss ≤ jb := Nat.le_max_left _ _
      omega
    have hjs_le : ∀ j ∈ js, j ≤ c := by
      intro j hj
      rw [hjs, List.mem_range'] at hj
      obtain ⟨k, hk, rfl⟩ := hj
      have h1 : (k : ℤ) < (je + 1 - (jb : ℤ)).toNat := by exact_mod_cast hk
      have h2 : ((je + 1 - (jb : ℤ)).toNat : ℤ) ≤ max (je + 1 - (jb : ℤ)) 0 :=
        le_of_eq (Int.toNat_eq_max _)
      have h3 : je ≤ (c : ℤ) := min_le_right _ _
      have : ((jb + 1 * k : ℕ) : ℤ) ≤ (c : ℤ) := by push_cast; omega
      exact_mod_cast this
    obtain ⟨ws1, hw1, hw2, hw3, hw4⟩ :=
      innerLoop_writes dm ub se i hi1 js D ss false i cs
        (by rw [hjs]; exact range'_pairwise_lt _ _) hjs_pos
    rcases hinner : innerLoop dm ub se i js D ss false i cs with ⟨D2, ss2, nse2, cs2⟩
    rw [hinner] at hw1 hw3 hw4
    simp only at hw1 hw3 hw4
    have hss2 : 1 ≤ ss2 := by
      have := innerLoop_ss_pos dm ub se i js D ss false i cs hss
      rw [hinner] at this
      exact this
    obtain ⟨ws2, hv1, hv2, hv3, hv4⟩ := ih D2 ss2 nse2 cs2 hpair' hpos' hss2
    refine ⟨ws1 ++ ws2, ?_, ?_, ?_, ?_⟩
    · rw [hv1, hw1, List.append_assoc]
    · intro q hq
      rcases List.mem_append.mp hq with hq1 | hq2
      · obtain ⟨hqi, hqj⟩ := hw2 q hq1
        exact ⟨hqi ▸ List.mem_cons_self i is, hjs_pos _ hqj, hjs_le _ hqj⟩
      · obtain ⟨hqi, h1, h2⟩ := hv2 q hq2
        exact ⟨List.mem_cons_of_mem i hqi, h1, h2⟩
    · intro a b hab
      rw [hv3 a b (fun h => hab (List.mem_append.mpr (Or.inr h))),
        hw3 a b (fun h => hab (List.mem_append.mpr (Or.inl h)))]
    · intro q hq
      rcases List.mem_append.mp hq with hq1 | hq2
      · -- a cell written in row i; later rows (all > i) never touch it or
        -- its predecessors
        obtain ⟨hqi, hqj⟩ := hw2 q hq1
        have hnotin2 : ∀ a b, a ≤ i → (a, b) ∉ ws2 := by
          intro a b ha hmem
          have := (hv2 (a, b) hmem).1
          exact absurd (hilt a this) (by omega)
        obtain ⟨qi, qj⟩ := q
        simp only at hqi hqj
        have hq1v : (rowsLoop dm ub c w is D2 ss2 nse2 cs2).1 qi qj = D2 qi qj :=
          hv3 qi qj (hnotin2 qi qj (le_of_eq hqi))
        have hp1 : (rowsLoop dm ub c w is D2 ss2 nse2 cs2).1 (qi-1) (qj-1) =
            D2 (qi-1) (qj-1) := hv3 _ _ (hnotin2 (qi-1) (qj-1) (by omega))
        have hp2 : (rowsLoop dm ub c w is D2 ss2 nse2 cs2).1 (qi-1) qj =
            D2 (qi-1) qj := hv3 _ _ (hnotin2 (qi-1) qj (by omega))
        have hp3 : (rowsLoop dm ub c w is D2 ss2 nse2 cs2).1 qi (qj-1) =
            D2 qi (qj-1) := hv3 _ _ (hnotin2 qi (qj-1) (le_of_eq hqi))
        have := hw4 (qi, qj) hq1
        simp only at this
        rw [hq1v]
        unfold cellVal at this ⊢
        rw [hp1, hp2, hp3]
        exact this
      · exact hv4 q hq2

/-- C3: every cell the builder writes has `i, j ≥ 1` and satisfies the
DP recurrence `D[i,j] = dist(T1[i-1], T2[j-1]) + min(D[i-1,j-1],
D[i-1,j], D[i,j-1])` read against the final matrix, in which every
never-filled predecessor holds the `+∞` sentinel; cells the builder
never writes keep their initial value (the sentinel, except `D[0,0]=0`). -/
theorem C3_written_cells_recurrence [Inhabited α] (t1 t2 : List α)
    (d : α → α → ℕ) (w : ℤ) (i j : ℕ) :
    ((i, j) ∈ writtenCells t1 t2 d w →
      1 ≤ i ∧ i ≤ t1.length ∧ 1 ≤ j ∧ j ≤ t2.length ∧
      dtw_helper t1 t2 d w i j =
        cellVal (distMat t1 t2 d) (dtw_helper t1 t2 d w) i j) ∧
    ((i, j) ∉ writtenCells t1 t2 d w →
      dtw_helper t1 t2 d w i j = initMat i j) := by
  obtain ⟨ws, hw1, hw2, hw3, hw4⟩ :=
    rowsLoop_writes (distMat t1 t2 d) (upperBound t1 t2 d) t2.length w
      (List.range' 1 t1.length) initMat 1 1 []
      (range'_pairwise_lt _ _)
      (by intro x hx; rw [List.mem_range'] at hx; omega)
      (le_refl 1)
  have hwc : writtenCells t1 t2 d w = ws := by
    unfold writtenCells buildRun
    rw [hw1]
    simp
  constructor
  · intro hmem
    rw [hwc] at hmem
    obtain ⟨hrow, hj1, hj2⟩ := hw2 (i, j) hmem
    simp only at hrow hj1 hj2
    rw [List.mem_range'] at hrow
    have := hw4 (i, j) hmem
    simp only at this
    exact ⟨by omega, by omega, hj1, hj2, this⟩
  · intro hmem
    rw [hwc] at hmem
    exact hw3 i j hmem

/-- C3 witness: on the reference fixture at window 5 the cell `(1, 1)` is
written and satisfies the recurrence; the cell `(10, 1)` is never
written and keeps the sentinel. -/
theorem C3_written_cells_recurrence_witness :
    (1 ≤ 1 ∧ 1 ≤ ([1,3,4,9,8,2,1,5,7,3] : List ℤ).length ∧ 1 ≤ 1 ∧
      1 ≤ ([1,6,2,3,0,9,4,3,6,3] : List ℤ).length ∧
      dtw_helper ([1,3,4,9,8,2,1,5,7,3] : List ℤ) [1,6,2,3,0,9,4,3,6,3]
          euclian_distance 5 1 1 =
        cellVal (distMat ([1,3,4,9,8,2,1,5,7,3] : List ℤ) [1,6,2,3,0,9,4,3,6,3]
            euclian_distance)
          (dtw_helper ([1,3,4,9,8,2,1,5,7,3] : List ℤ) [1,6,2,3,0,9,4,3,6,3]
            euclian_distance 5) 1 1) ∧
    dtw_helper ([1,3,4,9,8,2,1,5,7,3] : List ℤ) [1,6,2,3,0,9,4,3,6,3]
        euclian_distance 5 10 1 = initMat 10 1 :=
  ⟨(C3_written_cells_recurrence [1,3,4,9,8,2,1,5,7,3] [1,6,2,3,0,9,4,3,6,3]
      euclian_distance 5 1 1).1 (by decide),
   (C3_written_cells_recurrence [1,3,4,9,8,2,1,5,7,3] [1,6,2,3,0,9,4,3,6,3]
      euclian_distance 5 10 1).2 (by decide)⟩

/-- Column zero of the unrestricted recurrence is unreachable. -/
theorem dtwFull_col_zero_of_pos (dm : ℕ → ℕ → ℕ) (i : ℕ) (hi : 1 ≤ i) :
    dtwFull dm i 0 = ⊤ := by
  obtain ⟨k, rfl⟩ : ∃ k, i = k + 1 := ⟨i - 1, by omega⟩
  exact dtwFull_col_zero dm k

/-- Row zero of the unrestricted recurrence is unreachable. -/
theorem dtwFull_row_zero_of_pos (dm : ℕ → ℕ → ℕ) (j : ℕ) (hj : 1 ≤ j) :
    dtwFull dm 0 j = ⊤ := by
  obtain ⟨k, rfl⟩ : ∃ k, j = k + 1 := ⟨j - 1, by omega⟩
  exact dtwFull_row_zero dm k

/-- Interior recurrence of `dtwFull`, stated with truncated subtraction. -/
theorem dtwFull_rec (dm : ℕ → ℕ → ℕ) (i j : ℕ) (hi : 1 ≤ i) (hj : 1 ≤ j) :
    dtwFull dm i j = (dm i j : ℕ∞) +
      min3 (dtwFull dm (i-1) (j-1)) (dtwFull dm (i-1) j) (dtwFull dm i (j-1)) := by
  obtain ⟨k, rfl⟩ : ∃ k, i = k + 1 := ⟨i - 1, by omega⟩
  obtain ⟨l, rfl⟩ : ∃ l, j = l + 1 := ⟨j - 1, by omega⟩
  simpa using dtwFull_succ_succ dm k l

/-- `min3` is monotone in all three arguments. -/
theorem min3_mono {a b c a2 b2 c2 : ℕ∞} (h1 : a ≤ a2) (h2 : b ≤ b2)
    (h3 : c ≤ c2) : min3 a b c ≤ min3 a2 b2 c2 :=
  min_le_min h1 (min_le_min h2 h3)

/-- `min3` attains one of its arguments. -/
theorem min3_cases (a b c : ℕ∞) : min3 a b c = a ∨ min3 a b c = b ∨ min3 a b c = c := by
  unfold min3
  rcases min_cases b c with ⟨h1, -⟩ | ⟨h1, -⟩ <;> rw [h1] <;>
    [skip; skip] <;> rcases min_cases a b with ⟨h2, -⟩ | ⟨h2, -⟩ <;>
    rcases min_cases a c with ⟨h3, -⟩ | ⟨h3, -⟩ <;> simp [h2, h3]

/-- A strict lower bound on all three arguments bounds `min3`. -/
theorem lt_min3 {u a b c : ℕ∞} (h1 : u < a) (h2 : u < b) (h3 : u < c) :
    u < min3 a b c :=
  lt_min h1 (lt_min h2 h3)

/-- `min3` is below the recurrence value. -/
theorem min3_le_dtwFull (dm : ℕ → ℕ → ℕ) (i j : ℕ) (hi : 1 ≤ i) (hj : 1 ≤ j) :
    min3 (dtwFull dm (i-1) (j-1)) (dtwFull dm (i-1) j) (dtwFull dm i (j-1)) ≤
      dtwFull dm i j := by
  rw [dtwFull_rec dm i j hi hj]
  exact le_add_self

/-- Once a cell of a row exceeds the bound and the whole remaining stripe
of the previous row exceeds it, every later cell of the row exceeds it:
down a row the recurrence only adds nonnegative distances. -/
theorem ub_lt_chain_row (dm : ℕ → ℕ → ℕ) (ub c i a : ℕ) (hi : 1 ≤ i)
    (ha : 1 ≤ a) (hbase : (ub : ℕ∞) < dtwFull dm i a)
    (hup : ∀ k, a ≤ k → k ≤ c → (ub : ℕ∞) < dtwFull dm (i-1) k) :
    ∀ j, a ≤ j → j ≤ c → (ub : ℕ∞) < dtwFull dm i j := by
  intro j
  induction j with
  | zero => intro hj _; omega
  | succ j ih =>
    intro hj hjc
    rcases Nat.lt_or_ge a (j+1) with hlt | hge
    · have hj1 : a ≤ j := by omega
      have hrec := dtwFull_rec dm i (j+1) hi (by omega)
      have hm : (ub : ℕ∞) < min3 (dtwFull dm (i-1) j) (dtwFull dm (i-1) (j+1))
          (dtwFull dm i j) := by
        refine lt_min3 (hup j hj1 (by omega)) (hup (j+1) (by omega) hjc) ?_
        exact ih hj1 (by omega)
      calc (ub : ℕ∞) < min3 (dtwFull dm (i-1) j) (dtwFull dm (i-1) (j+1))
            (dtwFull dm i j) := hm
        _ ≤ dtwFull dm i (j+1) := by
            rw [hrec]
            simpa using le_add_self
    · have : a = j + 1 := by omega
      exact this ▸ hbase

/-- If every column in `[1, s)` of a row exceeds the bound, the same
columns of the next row exceed it too (their three predecessors all
do). -/
theorem ub_lt_chain_col (dm : ℕ → ℕ → ℕ) (ub c i s : ℕ) (hi : 1 ≤ i)
    (h : ∀ j, 1 ≤ j → j < s → j ≤ c → (ub : ℕ∞) < dtwFull dm i j) :
    ∀ j, 1 ≤ j → j < s → j ≤ c → (ub : ℕ∞) < dtwFull dm (i+1) j := by
  intro j
  induction j with
  | zero => intro hj _ _; omega
  | succ j ih =>
    intro _ hjs hjc
    have htop : (ub : ℕ∞) < ⊤ := WithTop.coe_lt_top ub
    have hrec := dtwFull_rec dm (i+1) (j+1) (by omega) (by omega)
    have hp1 : (ub : ℕ∞) < dtwFull dm i j := by
      rcases Nat.eq_zero_or_pos j with rfl | hj0
      · rw [dtwFull_col_zero_of_pos dm i hi]; exact htop
      · exact h j hj0 (by omega) (by omega)
    have hp2 : (ub : ℕ∞) < dtwFull dm i (j+1) := h (j+1) (by omega) hjs hjc
    have hp3 : (ub : ℕ∞) < dtwFull dm (i+1) j := by
      rcases Nat.eq_zero_or_pos j with rfl | hj0
      · rw [dtwFull_col_zero_of_pos dm (i+1) (by omega)]; exact htop
      · exact ih hj0 (by omega) (by omega)
    have hm := lt_min3 hp1 hp2 hp3
    calc (ub : ℕ∞) < min3 (dtwFull dm i j) (dtwFull dm i (j+1))
          (dtwFull dm (i+1) j) := hm
      _ ≤ dtwFull dm (i+1) (j+1) := by
          rw [hrec]
          simpa using le_add_self

/-- `min3` is below its first argument. -/
theorem min3_le_left (a b c : ℕ∞) : min3 a b c ≤ a := min_le_left _ _

/-- `min3` is below its second argument. -/
theorem min3_le_mid (a b c : ℕ∞) : min3 a b c ≤ b :=
  le_trans (min_le_right _ _) (min_le_left _ _)

/-- `min3` is below its third argument. -/
theorem min3_le_right (a b c : ℕ∞) : min3 a b c ≤ c :=
  le_trans (min_le_right _ _) (min_le_right _ _)

/-- A value `≤ ub` is not `⊤`-dominating: `⊤ ≤ ub` is absurd. -/
theorem not_top_le_ub (ub : ℕ) : ¬ ((⊤ : ℕ∞) ≤ (ub : ℕ∞)) := fun h =>
  absurd (lt_of_le_of_lt h (WithTop.coe_lt_top ub)) (lt_irrefl ⊤)

/-- Exactness of one pruned row scan.  If the previous row agrees with
the unrestricted recurrence wherever the latter is below the upper
bound, exceeds the bound at and beyond `search_end`, and the cells left
of the scan start all exceed the bound, then after the scan the current
row also agrees with the recurrence wherever it is below the bound, and
the returned `search_start` / `next_search_end` again delimit
above-bound stripes. -/
theorem innerLoop_prune (dm : ℕ → ℕ → ℕ) (ub c se i : ℕ) (hi : 1 ≤ i) :
    ∀ (n j0 : ℕ) (D : Mat) (ss : ℕ) (below : Bool) (nse : ℕ)
      (cs : List (ℕ × ℕ)),
      1 ≤ j0 → j0 + n = c + 1 →
      (∀ b, D 0 b = dtwFull dm 0 b) →
      (∀ a, 1 ≤ a → D a 0 = ⊤) →
      (∀ k, 1 ≤ k → k ≤ c → dtwFull dm (i-1) k ≤ D (i-1) k) →
      (∀ k, 1 ≤ k → k ≤ c → dtwFull dm (i-1) k ≤ (ub : ℕ∞) →
        D (i-1) k = dtwFull dm (i-1) k) →
      (∀ k, se ≤ k → k ≤ c → (ub : ℕ∞) < dtwFull dm (i-1) k) →
      (∀ k, 1 ≤ k → k < j0 → dtwFull dm i k ≤ D i k ∧
        (dtwFull dm i k ≤ (ub : ℕ∞) → D i k = dtwFull dm i k)) →
      (∀ k, j0 ≤ k → D i k = ⊤) →
      (∀ k, 1 ≤ k → k < ss → k ≤ c → (ub : ℕ∞) < dtwFull dm i k) →
      (below = false → ss = j0) →
      (∀ k, nse ≤ k → k < j0 → 1 ≤ k → (ub : ℕ∞) < dtwFull dm i k) →
      1 ≤ nse →
      (∀ k, 1 ≤ k → k ≤ c →
        dtwFull dm i k ≤
          (innerLoop dm ub se i (List.range' j0 n) D ss below nse cs).1 i k ∧
        (dtwFull dm i k ≤ (ub : ℕ∞) →
          (innerLoop dm ub se i (List.range' j0 n) D ss below nse cs).1 i k =
            dtwFull dm i k)) ∧
      (∀ k, 1 ≤ k →
        k < (innerLoop dm ub se i (List.range' j0 n) D ss below nse cs).2.1 →
        k ≤ c → (ub : ℕ∞) < dtwFull dm i k) ∧
      (∀ k, (innerLoop dm ub se i (List.range' j0 n) D ss below nse cs).2.2.1 ≤ k →
        k ≤ c → 1 ≤ k → (ub : ℕ∞) < dtwFull dm i k) ∧
      1 ≤ (innerLoop dm ub se i (List.range' j0 n) D ss below nse cs).2.2.1 := by
  intro n
  induction n with
  | zero =>
    intro j0 D ss below nse cs hj01 hj0n Hsk0 Hcol Hprev Hpreveq Hse Hdone Hun
      Hssinv Hssj Hnse Hnse1
    simp only [List.range'_zero, innerLoop]
    refine ⟨fun k hk1 hkc => Hdone k hk1 (by omega), Hssinv,
      fun k hk hkc hk1 => Hnse k hk (by omega) hk1, Hnse1⟩
  | succ n ih =>
    intro j0 D ss below nse cs hj01 hj0n Hsk0 Hcol Hprev Hpreveq Hse Hdone Hun
      Hssinv Hssj Hnse Hnse1
    have hj0c : j0 ≤ c := by omega
    -- previous-row and current-row comparison facts including column 0
    have hpged : ∀ k, k ≤ c → dtwFull dm (i-1) k ≤ D (i-1) k := by
      intro k hk
      rcases Nat.eq_zero_or_pos k with rfl | hk1
      · rcases Nat.eq_zero_or_pos (i-1) with hiz | hip
        · rw [hiz, Hsk0 0]
        · rw [Hcol (i-1) hip]
          exact le_top
      · exact Hprev k hk1 hk
    have hpeq : ∀ k, k ≤ c → dtwFull dm (i-1) k ≤ (ub : ℕ∞) →
        D (i-1) k = dtwFull dm (i-1) k := by
      intro k hk hub
      rcases Nat.eq_zero_or_pos k with rfl | hk1
      · rcases Nat.eq_zero_or_pos (i-1) with hiz | hip
        · rw [hiz, Hsk0 0]
        · exfalso
          rw [dtwFull_col_zero_of_pos dm (i-1) hip] at hub
          exact not_top_le_ub ub hub
      · exact Hpreveq k hk1 hk hub
    have hrowged : ∀ k, k < j0 → dtwFull dm i k ≤ D i k := by
      intro k hk
      rcases Nat.eq_zero_or_pos k with rfl | hk1
      · rw [Hcol i hi]; exact le_top
      · exact (Hdone k hk1 hk).1
    have hroweq : ∀ k, k < j0 → dtwFull dm i k ≤ (ub : ℕ∞) →
        D i k = dtwFull dm i k := by
      intro k hk hub
      rcases Nat.eq_zero_or_pos k with rfl | hk1
      · exfalso
        rw [dtwFull_col_zero_of_pos dm i hi] at hub
        exact not_top_le_ub ub hub
      · exact (Hdone k hk1 hk).2 hub
    -- the three central facts about the freshly computed value
    have hE1 : dtwFull dm i j0 ≤ cellVal dm D i j0 := by
      rw [dtwFull_rec dm i j0 hi hj01]
      unfold cellVal
      exact add_le_add_left
        (min3_mono (hpged (j0-1) (by omega)) (hpged j0 hj0c)
          (hrowged (j0-1) (by omega))) _
    have hE2 : dtwFull dm i j0 ≤ (ub : ℕ∞) → cellVal dm D i j0 = dtwFull dm i j0 := by
      intro hub
      refine le_antisymm ?_ hE1
      have hub2 := hub
      rw [dtwFull_rec dm i j0 hi hj01] at hub2 ⊢
      unfold cellVal
      refine add_le_add_left ?_ _
      have hm_ub : min3 (dtwFull dm (i-1) (j0-1)) (dtwFull dm (i-1) j0)
          (dtwFull dm i (j0-1)) ≤ (ub : ℕ∞) := le_trans le_add_self hub2
      rcases min3_cases (dtwFull dm (i-1) (j0-1)) (dtwFull dm (i-1) j0)
          (dtwFull dm i (j0-1)) with hc1 | hc2 | hc3
      · rw [hc1]
        rw [hc1] at hm_ub
        calc min3 (D (i-1) (j0-1)) (D (i-1) j0) (D i (j0-1)) ≤ D (i-1) (j0-1) :=
              min3_le_left _ _ _
          _ = dtwFull dm (i-1) (j0-1) := hpeq (j0-1) (by omega) hm_ub
      · rw [hc2]
        rw [hc2] at hm_ub
        calc min3 (D (i-1) (j0-1)) (D (i-1) j0) (D i (j0-1)) ≤ D (i-1) j0 :=
              min3_le_mid _ _ _
          _ = dtwFull dm (i-1) j0 := hpeq j0 hj0c hm_ub
      · rw [hc3]
        rw [hc3] at hm_ub
        calc min3 (D (i-1) (j0-1)) (D (i-1) j0) (D i (j0-1)) ≤ D i (j0-1) :=
              min3_le_right _ _ _
          _ = dtwFull dm i (j0-1) := hroweq (j0-1) (by omega) hm_ub
    have hE3 : (ub : ℕ∞) < cellVal dm D i j0 → (ub : ℕ∞) < dtwFull dm i j0 := by
      intro hv
      by_contra hcon
      push_neg at hcon
      rw [hE2 hcon] at hv
      exact absurd hv (not_lt.mpr hcon)
    -- the updated matrix
    set D2 : Mat := matUpd D i j0 (cellVal dm D i j0) with hD2
    have hD2ij : D2 i j0 = cellVal dm D i j0 := by
      rw [hD2]
      unfold matUpd
      rw [if_pos ⟨rfl, rfl⟩]
    have hD2other : ∀ a b, ¬ (a = i ∧ b = j0) → D2 a b = D a b := by
      intro a b h
      rw [hD2]
      unfold matUpd
      rw [if_neg h]
    -- hypotheses of the recursive call that do not depend on the branch
    have Hsk0' : ∀ b, D2 0 b = dtwFull dm 0 b := by
      intro b
      rw [hD2other 0 b (by intro h; omega)]
      exact Hsk0 b
    have Hcol' : ∀ a, 1 ≤ a → D2 a 0 = ⊤ := by
      intro a ha
      rw [hD2other a 0 (by intro h; omega)]
      exact Hcol a ha
    have Hprev' : ∀ k, 1 ≤ k → k ≤ c → dtwFull dm (i-1) k ≤ D2 (i-1) k := by
      intro k hk1 hkc
      rw [hD2other (i-1) k (by intro h; omega)]
      exact Hprev k hk1 hkc
    have Hpreveq' : ∀ k, 1 ≤ k → k ≤ c → dtwFull dm (i-1) k ≤ (ub : ℕ∞) →
        D2 (i-1) k = dtwFull dm (i-1) k := by
      intro k hk1 hkc hub
      rw [hD2other (i-1) k (by intro h; omega)]
      exact Hpreveq k hk1 hkc hub
    have Hdone' : ∀ k, 1 ≤ k → k < j0 + 1 → dtwFull dm i k ≤ D2 i k ∧
        (dtwFull dm i k ≤ (ub : ℕ∞) → D2 i k = dtwFull dm i k) := by
      intro k hk1 hk
      rcases Nat.lt_or_ge k j0 with hlt | hge
      · rw [hD2other i k (by intro h; omega)]
        exact Hdone k hk1 hlt
      · have : k = j0 := by omega
        subst this
        rw [hD2ij]
        exact ⟨hE1, hE2⟩
    have Hun' : ∀ k, j0 + 1 ≤ k → D2 i k = ⊤ := by
      intro k hk
      rw [hD2other i k (by intro h; omega)]
      exact Hun k (by omega)
    rw [List.range'_succ, innerLoop]
    by_cases hvlt : (ub : ℕ∞) < cellVal dm D i j0
    · rw [if_pos hvlt]
      have hFj0 : (ub : ℕ∞) < dtwFull dm i j0 := hE3 hvlt
      have Hssinv2 : ∀ k, 1 ≤ k → k < (if below then ss else j0 + 1) →
          k ≤ c → (ub : ℕ∞) < dtwFull dm i k := by
        cases below with
        | true =>
          intro k hk1 hk hkc
          rw [if_pos rfl] at hk
          exact Hssinv k hk1 hk hkc
        | false =>
          intro k hk1 hk hkc
          rw [if_neg (by simp)] at hk
          rcases Nat.lt_or_ge k j0 with hlt | hge
          · refine Hssinv k hk1 ?_ hkc
            rw [Hssj rfl]
            exact hlt
          · have hkj : k = j0 := by omega
            subst hkj
            exact hFj0
      by_cases hse : se ≤ j0
      · rw [if_pos hse, ← hD2]
        have hchain : ∀ k, j0 ≤ k → k ≤ c → (ub : ℕ∞) < dtwFull dm i k :=
          ub_lt_chain_row dm ub c i j0 hi hj01 hFj0
            (fun k hk hkc => Hse k (by omega) hkc)
        refine ⟨?_, ?_, ?_, ?_⟩
        · intro k hk1 hkc
          simp only
          rcases Nat.lt_or_ge k j0 with hlt | hge
          · rw [hD2other i k (by intro h; omega)]
            exact Hdone k hk1 hlt
          · rcases Nat.eq_or_lt_of_le hge with rfl | hgt
            · rw [hD2ij]
              exact ⟨hE1, hE2⟩
            · rw [hD2other i k (by intro h; omega), Hun k (by omega)]
              refine ⟨le_top, fun hub => absurd hub (not_le.mpr (hchain k (by omega) hkc))⟩
        · intro k hk1 hk hkc
          exact Hssinv2 k hk1 hk hkc
        · intro k hk hkc hk1
          simp only at hk
          rcases Nat.lt_or_ge k j0 with hlt | hge
          · exact Hnse k hk hlt hk1
          · exact hchain k hge hkc
        · exact Hnse1
      · rw [if_neg hse]
        refine ih (j0+1) D2 (if below then ss else j0 + 1) below nse (cs ++ [(i, j0)])
          (by omega) (by omega) Hsk0' Hcol' Hprev' Hpreveq' Hse Hdone' Hun'
          Hssinv2 ?_ ?_ Hnse1
        · intro hb
          rw [hb]
          simp
        · intro k hk hkj0 hk1
          rcases Nat.lt_or_ge k j0 with hlt | hge
          · exact Hnse k hk hlt hk1
          · have : k = j0 := by omega
            subst this
            exact hFj0
    · rw [if_neg hvlt]
      refine ih (j0+1) D2 ss true (j0+1) (cs ++ [(i, j0)])
        (by omega) (by omega) Hsk0' Hcol' Hprev' Hpreveq' Hse Hdone' Hun'
        Hssinv ?_ ?_ (by omega)
      · intro hb
        exact absurd hb (by simp)
      · intro k hk hkj0 hk1
        omega

/-- The inner loop keeps `search_start` within `c + 1` when all its
columns are within `c`. -/
theorem innerLoop_ss_le (dm : ℕ → ℕ → ℕ) (ub se i c : ℕ) :
    ∀ (js : List ℕ) (D : Mat) (ss : ℕ) (below : Bool) (nse : ℕ)
      (cs : List (ℕ × ℕ)), (∀ j ∈ js, j ≤ c) → ss ≤ c + 1 →
      (innerLoop dm ub se i js D ss below nse cs).2.1 ≤ c + 1 := by
  intro js
  induction js with
  | nil => intro D ss below nse cs _ hss; exact hss
  | cons j js ih =>
    intro D ss below nse cs hjs hss
    have hjc : j ≤ c := hjs j (List.mem_cons_self j js)
    have hjs' : ∀ x ∈ js, x ≤ c := fun x hx => hjs x (List.mem_cons_of_mem j hx)
    rw [innerLoop]
    by_cases hv : (ub : ℕ∞) < cellVal dm D i j
    · rw [if_pos hv]
      by_cases hse : se ≤ j
      · rw [if_pos hse]
        cases below with
        | true => simpa using hss
        | false => simp only [Bool.false_eq_true, if_false]; omega
      · rw [if_neg hse]
        apply ih _ _ _ _ _ hjs'
        cases below with
        | true => simpa using hss
        | false => simp only [Bool.false_eq_true, if_false]; omega
    · rw [if_neg hv]
      exact ih _ _ _ _ _ hjs' hss

/-- Exactness of the pruned row loop under an everywhere-covering window
(`w ≥ r` and `w ≥ c`): processing rows `i+1 .. r` starting from a state
whose invariants hold at row `i` yields a final row `r` that agrees with
the unrestricted recurrence wherever the latter is below the upper
bound. -/
theorem rowsLoop_prune (dm : ℕ → ℕ → ℕ) (ub c : ℕ) (w : ℤ) (r : ℕ)
    (hwr : (r : ℤ) ≤ w) (hwc : (c : ℤ) ≤ w) :
    ∀ (m i : ℕ) (D : Mat) (ss se : ℕ) (cs : List (ℕ × ℕ)),
      i + m = r →
      (∀ b, D 0 b = dtwFull dm 0 b) →
      (∀ a, 1 ≤ a → D a 0 = ⊤) →
      (∀ k, 1 ≤ k → k ≤ c → dtwFull dm i k ≤ D i k ∧
        (dtwFull dm i k ≤ (ub : ℕ∞) → D i k = dtwFull dm i k)) →
      1 ≤ ss → ss ≤ c + 1 →
      (∀ k, 1 ≤ k → k < ss → k ≤ c → (ub : ℕ∞) < dtwFull dm i k) →
      (i = 0 → ss = 1) →
      1 ≤ se →
      (∀ k, se ≤ k → k ≤ c → (ub : ℕ∞) < dtwFull dm i k) →
      (∀ a b, i < a → D a b = ⊤) →
      ∀ k, 1 ≤ k → k ≤ c →
        dtwFull dm r k ≤
          (rowsLoop dm ub c w (List.range' (i+1) m) D ss se cs).1 r k ∧
        (dtwFull dm r k ≤ (ub : ℕ∞) →
          (rowsLoop dm ub c w (List.range' (i+1) m) D ss se cs).1 r k =
            dtwFull dm r k) := by
  intro m
  induction m with
  | zero =>
    intro i D ss se cs hir _ _ Grow _ _ _ _ _ _ _ k hk1 hkc
    have : i = r := by omega
    subst this
    simpa [List.range'_zero, rowsLoop] using Grow k hk1 hkc
  | succ m ih =>
    intro i D ss se cs hir G1 G2 Grow hss1 hssc Gss Gss0 hse1 Gse Grest k hk1 hkc
    have hi1r : i + 1 ≤ r := by omega
    rw [List.range'_succ, rowsLoop]
    have htn : (((i+1 : ℕ) : ℤ) - w).toNat = 0 := by
      rw [Int.toNat_eq_zero]
      have : ((i+1 : ℕ) : ℤ) ≤ (r : ℤ) := by exact_mod_cast hi1r
      omega
    have hjb : max ss (((i+1 : ℕ) : ℤ) - w).toNat = ss := by
      rw [htn]
      exact Nat.max_eq_left (Nat.zero_le ss)
    have hje : min (((i+1 : ℕ) : ℤ) + w) (c : ℤ) = (c : ℤ) := by
      refine min_eq_right ?_
      have : (0 : ℤ) ≤ ((i+1 : ℕ) : ℤ) := Int.natCast_nonneg _
      omega
    have hlen : ((c : ℤ) + 1 - (ss : ℤ)).toNat = c + 1 - ss := by omega
    rw [hjb, hje, hlen]
    -- the above-bound stripe left of the scan start, lifted to row i+1
    have hsspre : ∀ k2, 1 ≤ k2 → k2 < ss → k2 ≤ c →
        (ub : ℕ∞) < dtwFull dm (i+1) k2 := by
      rcases Nat.eq_zero_or_pos i with rfl | hip
      · intro k2 hk21 hk2s _
        rw [Gss0 rfl] at hk2s
        omega
      · exact ub_lt_chain_col dm ub c i ss hip Gss
    have hinner := innerLoop_prune dm ub c se (i+1) (by omega) (c + 1 - ss) ss D ss
      false (i+1) cs hss1 (by omega) G1 G2
      (by
        intro k2 hk21 hk2c
        have hieq : i + 1 - 1 = i := by omega
        rw [hieq]
        exact (Grow k2 hk21 hk2c).1)
      (by
        intro k2 hk21 hk2c hub
        have hieq : i + 1 - 1 = i := by omega
        rw [hieq]
        exact (Grow k2 hk21 hk2c).2 hub)
      (by
        intro k2 hk2 hk2c
        have hieq : i + 1 - 1 = i := by omega
        rw [hieq]
        exact Gse k2 hk2 hk2c)
      (by
        intro k2 hk21 hk2s
        refine ⟨by rw [Grest (i+1) k2 (by omega)]; exact le_top, fun hub => ?_⟩
        exact absurd hub (not_le.mpr (hsspre k2 hk21 hk2s (by omega))))
      (fun k2 _ => Grest (i+1) k2 (by omega))
      hsspre
      (fun _ => rfl)
      (by
        intro k2 hk2a hk2b hk21
        exact hsspre k2 hk21 hk2b (by omega))
      (by omega)
    obtain ⟨ws1, -, hwcells, hwconf, -⟩ :=
      innerLoop_writes dm ub se (i+1) (by omega) (List.range' ss (c + 1 - ss)) D ss
        false (i+1) cs (range'_pairwise_lt _ _)
        (by
          intro x hx
          rw [List.mem_range'] at hx
          omega)
    have hsspos := innerLoop_ss_pos dm ub se (i+1)
      (List.range' ss (c + 1 - ss)) D ss false (i+1) cs hss1
    have hssle := innerLoop_ss_le dm ub se (i+1) c
      (List.range' ss (c + 1 - ss)) D ss false (i+1) cs
      (by
        intro x hx
        rw [List.mem_range'] at hx
        omega)
      (by omega)
    rcases hR1 : innerLoop dm ub se (i+1) (List.range' ss (c + 1 - ss)) D ss
        false (i+1) cs with ⟨D2, ss2, nse2, cs2⟩
    rw [hR1] at hinner hwconf hsspos hssle
    dsimp only at hinner hwconf hsspos hssle ⊢
    obtain ⟨Cval, Css, Cnse, Cnse1⟩ := hinner
    have hnotws : ∀ a b, a ≠ i + 1 → (a, b) ∉ ws1 := by
      intro a b ha hmem
      exact ha (hwcells (a, b) hmem).1
    have hnotws0 : ∀ a, (a, 0) ∉ ws1 := by
      intro a hmem
      have := (hwcells (a, 0) hmem).2
      rw [List.mem_range'] at this
      omega
    refine ih (i+1) D2 ss2 nse2 cs2 (by omega)
      (fun b => by rw [hwconf 0 b (hnotws 0 b (by omega))]; exact G1 b)
      (fun a ha => by rw [hwconf a 0 (hnotws0 a)]; exact G2 a ha)
      Cval hsspos hssle Css (by omega) Cnse1
      (fun k2 hk2 hk2c => Cnse k2 hk2 hk2c (by omega))
      (fun a b ha => by
        rw [hwconf a b (hnotws a b (by omega))]
        exact Grest a b (by omega))
      k hk1 hkc

/-- Full-window exactness at the level of the raw run: when the window
covers everything and the zip upper bound dominates the unrestricted
optimum, the pruned builder's final cell equals the unrestricted
recurrence. -/
theorem pruned_final_exact (dm : ℕ → ℕ → ℕ) (ub c r : ℕ) (w : ℤ)
    (hwr : (r : ℤ) ≤ w) (hwc : (c : ℤ) ≤ w)
    (hub : dtwFull dm r c ≤ (ub : ℕ∞)) :
    (rowsLoop dm ub c w (List.range' 1 r) initMat 1 1 []).1 r c =
      dtwFull dm r c := by
  rcases Nat.eq_zero_or_pos r with rfl | hr1
  · rcases Nat.eq_zero_or_pos c with rfl | hc1
    · simp only [List.range'_zero, rowsLoop]
      rfl
    · exfalso
      rw [dtwFull_row_zero_of_pos dm c hc1] at hub
      exact not_top_le_ub ub hub
  · rcases Nat.eq_zero_or_pos c with rfl | hc1
    · exfalso
      rw [dtwFull_col_zero_of_pos dm r hr1] at hub
      exact not_top_le_ub ub hub
    · have hG1 : ∀ b, initMat 0 b = dtwFull dm 0 b := by
        intro b
        cases b with
        | zero => rfl
        | succ b =>
          rw [dtwFull_row_zero dm b]
          unfold initMat
          rw [if_neg (by intro h; omega)]
      have hG2 : ∀ a, 1 ≤ a → initMat a 0 = ⊤ := by
        intro a ha
        unfold initMat
        rw [if_neg (by intro h; omega)]
      have hGrow : ∀ k, 1 ≤ k → k ≤ c → dtwFull dm 0 k ≤ initMat 0 k ∧
          (dtwFull dm 0 k ≤ (ub : ℕ∞) → initMat 0 k = dtwFull dm 0 k) := by
        intro k hk1 _
        rw [← hG1 k]
        exact ⟨le_refl _, fun _ => rfl⟩
      have hGse : ∀ k, 1 ≤ k → k ≤ c → (ub : ℕ∞) < dtwFull dm 0 k := by
        intro k hk1 _
        rw [dtwFull_row_zero_of_pos dm k hk1]
        exact WithTop.coe_lt_top ub
      have hGrest : ∀ a b, 0 < a → initMat a b = ⊤ := by
        intro a b ha
        unfold initMat
        rw [if_neg (by intro h; omega)]
      exact (rowsLoop_prune dm ub c w r hwr hwc r 0 initMat 1 1 [] (by omega)
        hG1 hG2 hGrow (le_refl 1) (by omega) (by intro k hk1 hk _; omega)
        (fun _ => rfl) (le_refl 1) hGse hGrest c hc1 (le_refl c)).2 hub

/-- The unrestricted diagonal cost is bounded by the sum of the diagonal
distances (the index-by-index baseline alignment). -/
theorem dtwFull_diag_le_sum (dm : ℕ → ℕ → ℕ) :
    ∀ n, dtwFull dm n n ≤
      (((List.range n).map (fun k => dm (k+1) (k+1))).sum : ℕ) := by
  intro n
  induction n with
  | zero => exact le_of_eq (dtwFull_zero_zero dm)
  | succ n ih =>
    rw [dtwFull_succ_succ dm n n, List.range_succ, List.map_append,
      List.sum_append]
    simp only [List.map_cons, List.map_nil, List.sum_cons, List.sum_nil]
    calc (dm (n+1) (n+1) : ℕ∞) + min3 (dtwFull dm n n) (dtwFull dm n (n+1))
          (dtwFull dm (n+1) n)
        ≤ (dm (n+1) (n+1) : ℕ∞) + dtwFull dm n n :=
          add_le_add_left (min3_le_left _ _ _) _
      _ ≤ (dm (n+1) (n+1) : ℕ∞) +
            ((((List.range n).map (fun k => dm (k+1) (k+1))).sum : ℕ) : ℕ∞) :=
          add_le_add_left ih _
      _ = ((((List.range n).map (fun k => dm (k+1) (k+1))).sum +
            (dm (n+1) (n+1) + 0) : ℕ) : ℕ∞) := by push_cast; ring

/-- The zip upper bound written as a sum over the overlapping index
range. -/
theorem upperBound_eq_range_sum [Inhabited α] (d : α → α → ℕ) :
    ∀ (t1 t2 : List α), upperBound t1 t2 d =
      ((List.range (min t1.length t2.length)).map
        (fun k => d (t1.getD k default) (t2.getD k default))).sum := by
  intro t1
  induction t1 with
  | nil => intro t2; simp [upperBound]
  | cons a t1 ih =>
    intro t2
    cases t2 with
    | nil => simp [upperBound]
    | cons b t2 =>
      have hmin : min (a :: t1).length (b :: t2).length =
          min t1.length t2.length + 1 := by
        simp only [List.length_cons]
        omega
      rw [hmin, List.range_succ_eq_map]
      simp only [List.map_cons, List.sum_cons, List.map_map]
      have hzip : upperBound (a :: t1) (b :: t2) d = d a b + upperBound t1 t2 d := by
        simp [upperBound, List.zip_cons_cons]
      rw [hzip, ih t2]
      congr 1

/-- On the zip diagonal the abstract distance matrix is the element
distance. -/
theorem distMat_diag [Inhabited α] (t1 t2 : List α) (d : α → α → ℕ) (k : ℕ) :
    distMat t1 t2 d (k+1) (k+1) = d (t1.getD k default) (t2.getD k default) := rfl

/-- For equal-length inputs the zip upper bound dominates the
unrestricted optimum (the zip diagonal is itself a complete
alignment). -/
theorem dtwFull_le_upperBound_of_eq_length [Inhabited α] (t1 t2 : List α)
    (d : α → α → ℕ) (hlen : t1.length = t2.length) :
    dtwFull (distMat t1 t2 d) t1.length t2.length ≤
      (upperBound t1 t2 d : ℕ∞) := by
  rw [upperBound_eq_range_sum d t1 t2, ← hlen, min_self]
  have := dtwFull_diag_le_sum (distMat t1 t2 d) t1.length
  calc dtwFull (distMat t1 t2 d) t1.length t1.length
      ≤ (((List.range t1.length).map
          (fun k => distMat t1 t2 d (k+1) (k+1))).sum : ℕ) := this
    _ = (((List.range t1.length).map
          (fun k => d (t1.getD k default) (t2.getD k default))).sum : ℕ) := rfl

/-- C1 (amended): with `time_warp_window ≥ max(len T1, len T2)` the
builder's final cell equals the unrestricted (no-window, no-pruning) DTW
recurrence, provided the zip upper bound dominates the unrestricted
optimum — which always holds when the two sequences have equal length.
(As originally stated, for all inputs, the claim is false: with unequal
lengths the prefix-only upper bound can over-prune; see the
counterexample.) -/
theorem C1_unbounded_window_refinement [Inhabited α] (t1 t2 : List α)
    (d : α → α → ℕ) (w : ℤ)
    (hw : ((max t1.length t2.length : ℕ) : ℤ) ≤ w)
    (hub : t1.length = t2.length ∨
      dtwFull (distMat t1 t2 d) t1.length t2.length ≤
        (upperBound t1 t2 d : ℕ∞)) :
    dtw_helper t1 t2 d w t1.length t2.length =
      dtwFull (distMat t1 t2 d) t1.length t2.length := by
  have hwr : (t1.length : ℤ) ≤ w := by
    refine le_trans ?_ hw
    exact_mod_cast Nat.le_max_left t1.length t2.length
  have hwc : (t2.length : ℤ) ≤ w := by
    refine le_trans ?_ hw
    exact_mod_cast Nat.le_max_right t1.length t2.length
  have hub2 : dtwFull (distMat t1 t2 d) t1.length t2.length ≤
      (upperBound t1 t2 d : ℕ∞) := by
    rcases hub with hlen | h
    · exact dtwFull_le_upperBound_of_eq_length t1 t2 d hlen
    · exact h
  unfold dtw_helper buildRun
  exact pruned_final_exact (distMat t1 t2 d) (upperBound t1 t2 d) t2.length
    t1.length w hwr hwc hub2

/-- C1 witness: for the equal-length pair `[0, 1]`, `[1, 3]` with window
`2 = max` the pruned builder's final cell equals the unrestricted
recurrence value. -/
theorem C1_unbounded_window_refinement_witness :
    dtw_helper ([0, 1] : List ℤ) ([1, 3] : List ℤ) euclian_distance 2 2 2 =
      dtwFull (distMat ([0, 1] : List ℤ) ([1, 3] : List ℤ) euclian_distance) 2 2 :=
  C1_unbounded_window_refinement [0, 1] [1, 3] euclian_distance 2
    (by norm_num) (Or.inl rfl)

/-- Defining equation of `dtwWin`: the origin costs 0. -/
theorem dtwWin_zero_zero (dm : ℕ → ℕ → ℕ) (w : ℤ) : dtwWin dm w 0 0 = 0 := rfl

/-- Defining equation of `dtwWin`: the rest of row zero is unreachable. -/
theorem dtwWin_row_zero (dm : ℕ → ℕ → ℕ) (w : ℤ) (j : ℕ) :
    dtwWin dm w 0 (j+1) = ⊤ := rfl

/-- Defining equation of `dtwWin`: the rest of column zero is
unreachable. -/
theorem dtwWin_col_zero (dm : ℕ → ℕ → ℕ) (w : ℤ) (i : ℕ) :
    dtwWin dm w (i+1) 0 = ⊤ := rfl

/-- Defining equation of `dtwWin`: the banded interior recurrence. -/
theorem dtwWin_succ_succ (dm : ℕ → ℕ → ℕ) (w : ℤ) (i j : ℕ) :
    dtwWin dm w (i+1) (j+1) =
      if ((i+1 : ℕ) : ℤ) - w ≤ (j : ℤ) + 1 ∧ (j : ℤ) + 1 ≤ ((i+1 : ℕ) : ℤ) + w then
        (dm (i+1) (j+1) : ℕ∞) +
          min3 (dtwWin dm w i j) (dtwWin dm w i (j+1)) (dtwWin dm w (i+1) j)
      else ⊤ := rfl

/-- Row zero of the windowed recurrence is unreachable away from the
origin. -/
theorem dtwWin_row_zero_of_pos (dm : ℕ → ℕ → ℕ) (w : ℤ) (j : ℕ) (hj : 1 ≤ j) :
    dtwWin dm w 0 j = ⊤ := by
  obtain ⟨k, rfl⟩ : ∃ k, j = k + 1 := ⟨j - 1, by omega⟩
  exact dtwWin_row_zero dm w k

/-- Column zero of the windowed recurrence is unreachable away from the
origin. -/
theorem dtwWin_col_zero_of_pos (dm : ℕ → ℕ → ℕ) (w : ℤ) (i : ℕ) (hi : 1 ≤ i) :
    dtwWin dm w i 0 = ⊤ := by
  obtain ⟨k, rfl⟩ : ∃ k, i = k + 1 := ⟨i - 1, by omega⟩
  exact dtwWin_col_zero dm w k

/-- Interior recurrence of `dtwWin` inside the band, stated with
truncated subtraction. -/
theorem dtwWin_rec (dm : ℕ → ℕ → ℕ) (w : ℤ) (i j : ℕ) (hi : 1 ≤ i)
    (hj : 1 ≤ j) (hlo : (i : ℤ) - w ≤ (j : ℤ)) (hhi : (j : ℤ) ≤ (i : ℤ) + w) :
    dtwWin dm w i j = (dm i j : ℕ∞) +
      min3 (dtwWin dm w (i-1) (j-1)) (dtwWin dm w (i-1) j)
        (dtwWin dm w i (j-1)) := by
  obtain ⟨k, rfl⟩ : ∃ k, i = k + 1 := ⟨i - 1, by omega⟩
  obtain ⟨l, rfl⟩ : ∃ l, j = l + 1 := ⟨j - 1, by omega⟩
  rw [dtwWin_succ_succ dm w k l, if_pos]
  · simp
  · push_cast
    constructor <;> push_cast at hlo hhi <;> omega

/-- Out-of-band cells of `dtwWin` are unreachable. -/
theorem dtwWin_out (dm : ℕ → ℕ → ℕ) (w : ℤ) (i j : ℕ) (hi : 1 ≤ i)
    (hj : 1 ≤ j) (hband : ¬ ((i : ℤ) - w ≤ (j : ℤ) ∧ (j : ℤ) ≤ (i : ℤ) + w)) :
    dtwWin dm w i j = ⊤ := by
  obtain ⟨k, rfl⟩ : ∃ k, i = k + 1 := ⟨i - 1, by omega⟩
  obtain ⟨l, rfl⟩ : ∃ l, j = l + 1 := ⟨j - 1, by omega⟩
  rw [dtwWin_succ_succ dm w k l, if_neg]
  intro h
  refine hband ?_
  push_cast at h ⊢
  omega

/-- Widening the band can only decrease the windowed recurrence:
`dtwWin` is antitone in the window. -/
theorem dtwWin_mono_window (dm : ℕ → ℕ → ℕ) {w1 w2 : ℤ} (hw : w1 ≤ w2) :
    ∀ i j, dtwWin dm w2 i j ≤ dtwWin dm w1 i j := by
  intro i
  induction i with
  | zero =>
    intro j
    cases j with
    | zero => exact le_of_eq rfl
    | succ j => exact le_of_eq rfl
  | succ i ihrow =>
    intro j
    induction j with
    | zero => exact le_of_eq rfl
    | succ j ihcol =>
      rw [dtwWin_succ_succ dm w1 i j, dtwWin_succ_succ dm w2 i j]
      by_cases h1 : ((i+1 : ℕ) : ℤ) - w1 ≤ (j : ℤ) + 1 ∧
          (j : ℤ) + 1 ≤ ((i+1 : ℕ) : ℤ) + w1
      · have h2 : ((i+1 : ℕ) : ℤ) - w2 ≤ (j : ℤ) + 1 ∧
            (j : ℤ) + 1 ≤ ((i+1 : ℕ) : ℤ) + w2 := by omega
        rw [if_pos h1, if_pos h2]
        exact add_le_add_left
          (min3_mono (ihrow j) (ihrow (j+1)) ihcol) _
      · rw [if_neg h1]
        exact le_top

/-- Inside a nonnegative-width band the diagonal is reachable: the
windowed diagonal cost is bounded by the sum of the diagonal
distances. -/
theorem dtwWin_diag_le_sum (dm : ℕ → ℕ → ℕ) (w : ℤ) (hw : 0 ≤ w) :
    ∀ n, dtwWin dm w n n ≤
      (((List.range n).map (fun k => dm (k+1) (k+1))).sum : ℕ) := by
  intro n
  induction n with
  | zero => exact le_of_eq (dtwWin_zero_zero dm w)
  | succ n ih =>
    rw [dtwWin_succ_succ dm w n n, List.range_succ, List.map_append,
      List.sum_append, if_pos (by push_cast; omega)]
    simp only [List.map_cons, List.map_nil, List.sum_cons, List.sum_nil]
    calc (dm (n+1) (n+1) : ℕ∞) + min3 (dtwWin dm w n n) (dtwWin dm w n (n+1))
          (dtwWin dm w (n+1) n)
        ≤ (dm (n+1) (n+1) : ℕ∞) + dtwWin dm w n n :=
          add_le_add_left (min3_le_left _ _ _) _
      _ ≤ (dm (n+1) (n+1) : ℕ∞) +
            ((((List.range n).map (fun k => dm (k+1) (k+1))).sum : ℕ) : ℕ∞) :=
          add_le_add_left ih _
      _ = ((((List.range n).map (fun k => dm (k+1) (k+1))).sum +
            (dm (n+1) (n+1) + 0) : ℕ) : ℕ∞) := by push_cast; ring

/-- Windowed analogue of `ub_lt_chain_row`: once a cell of a row exceeds
the bound and the whole remaining stripe of the previous row exceeds it,
every later cell of the row exceeds it (out-of-band cells are `⊤`). -/
theorem ub_lt_chain_rowW (dm : ℕ → ℕ → ℕ) (w : ℤ) (ub c i a : ℕ) (hi : 1 ≤ i)
    (ha : 1 ≤ a) (hbase : (ub : ℕ∞) < dtwWin dm w i a)
    (hup : ∀ k, a ≤ k → k ≤ c → (ub : ℕ∞) < dtwWin dm w (i-1) k) :
    ∀ j, a ≤ j → j ≤ c → (ub : ℕ∞) < dtwWin dm w i j := by
  intro j
  induction j with
  | zero => intro hj _; omega
  | succ j ih =>
    intro hj hjc
    rcases Nat.lt_or_ge a (j+1) with hlt | hge
    · have hj1 : a ≤ j := by omega
      by_cases hband : (i : ℤ) - w ≤ ((j+1 : ℕ) : ℤ) ∧
          ((j+1 : ℕ) : ℤ) ≤ (i : ℤ) + w
      · have hrec := dtwWin_rec dm w i (j+1) hi (by omega) hband.1 hband.2
        have hm : (ub : ℕ∞) < min3 (dtwWin dm w (i-1) j)
            (dtwWin dm w (i-1) (j+1)) (dtwWin dm w i j) := by
          refine lt_min3 (hup j hj1 (by omega)) (hup (j+1) (by omega) hjc) ?_
          exact ih hj1 (by omega)
        calc (ub : ℕ∞) < min3 (dtwWin dm w (i-1) j) (dtwWin dm w (i-1) (j+1))
              (dtwWin dm w i j) := hm
          _ ≤ dtwWin dm w i (j+1) := by
              rw [hrec]
              simpa using le_add_self
      · rw [dtwWin_out dm w i (j+1) hi (by omega) hband]
        exact WithTop.coe_lt_top ub
    · have : a = j + 1 := by omega
      exact this ▸ hbase

/-- Windowed analogue of `ub_lt_chain_col`: an above-bound stripe
`[1, s)` of a row forces the same stripe of the next row above the
bound. -/
theorem ub_lt_chain_colW (dm : ℕ → ℕ → ℕ) (w : ℤ) (ub c i s : ℕ) (hi : 1 ≤ i)
    (h : ∀ j, 1 ≤ j → j < s → j ≤ c → (ub : ℕ∞) < dtwWin dm w i j) :
    ∀ j, 1 ≤ j → j < s → j ≤ c → (ub : ℕ∞) < dtwWin dm w (i+1) j := by
  intro j
  induction j with
  | zero => intro hj _ _; omega
  | succ j ih =>
    intro _ hjs hjc
    have htop : (ub : ℕ∞) < ⊤ := WithTop.coe_lt_top ub
    by_cases hband : ((i+1 : ℕ) : ℤ) - w ≤ ((j+1 : ℕ) : ℤ) ∧
        ((j+1 : ℕ) : ℤ) ≤ ((i+1 : ℕ) : ℤ) + w
    · have hrec := dtwWin_rec dm w (i+1) (j+1) (by omega) (by omega)
        hband.1 hband.2
      have hp1 : (ub : ℕ∞) < dtwWin dm w i j := by
        rcases Nat.eq_zero_or_pos j with rfl | hj0
        · rw [dtwWin_col_zero_of_pos dm w i hi]; exact htop
        · exact h j hj0 (by omega) (by omega)
      have hp2 : (ub : ℕ∞) < dtwWin dm w i (j+1) := h (j+1) (by omega) hjs hjc
      have hp3 : (ub : ℕ∞) < dtwWin dm w (i+1) j := by
        rcases Nat.eq_zero_or_pos j with rfl | hj0
        · rw [dtwWin_col_zero_of_pos dm w (i+1) (by omega)]; exact htop
        · exact ih hj0 (by omega) (by omega)
      have hm := lt_min3 hp1 hp2 hp3
      calc (ub : ℕ∞) < min3 (dtwWin dm w i j) (dtwWin dm w i (j+1))
            (dtwWin dm w (i+1) j) := hm
        _ ≤ dtwWin dm w (i+1) (j+1) := by
            rw [hrec]
            simpa using le_add_self
    · rw [dtwWin_out dm w (i+1) (j+1) (by omega) (by omega) hband]
      exact htop

/-- Windowed exactness of one pruned row scan.  The scan list covers
columns `j0 .. je` of the band of row `i`; cells beyond `je` and cells
skipped on the left are known to exceed the upper bound in the windowed
recurrence.  If the previous row agrees with the windowed recurrence
wherever the latter is below the upper bound and exceeds the bound at
and beyond `search_end`, then after the scan the current row also agrees
with the windowed recurrence wherever it is below the bound, and the
returned `search_start` / `next_search_end` again delimit above-bound
stripes. -/
theorem innerLoop_pruneW (dm : ℕ → ℕ → ℕ) (w : ℤ) (ub c se i je : ℕ)
    (hi : 1 ≤ i) (hjec : je ≤ c) :
    ∀ (n j0 : ℕ) (D : Mat) (ss : ℕ) (below : Bool) (nse : ℕ)
      (cs : List (ℕ × ℕ)),
      1 ≤ j0 → j0 + n = je + 1 →
      (∀ k, j0 ≤ k → k ≤ je → (i : ℤ) - w ≤ (k : ℤ) ∧ (k : ℤ) ≤ (i : ℤ) + w) →
      (∀ k, je < k → k ≤ c → (ub : ℕ∞) < dtwWin dm w i k) →
      (∀ b, D 0 b = dtwWin dm w 0 b) →
      (∀ a, 1 ≤ a → D a 0 = ⊤) →
      (∀ k, 1 ≤ k → k ≤ c → dtwWin dm w (i-1) k ≤ D (i-1) k) →
      (∀ k, 1 ≤ k → k ≤ c → dtwWin dm w (i-1) k ≤ (ub : ℕ∞) →
        D (i-1) k = dtwWin dm w (i-1) k) →
      (∀ k, se ≤ k → k ≤ c → (ub : ℕ∞) < dtwWin dm w (i-1) k) →
      (∀ k, 1 ≤ k → k < j0 → dtwWin dm w i k ≤ D i k ∧
        (dtwWin dm w i k ≤ (ub : ℕ∞) → D i k = dtwWin dm w i k)) →
      (∀ k, j0 ≤ k → D i k = ⊤) →
      (∀ k, 1 ≤ k → k < ss → k ≤ c → (ub : ℕ∞) < dtwWin dm w i k) →
      (below = false → ∀ k, 1 ≤ k → k < j0 → k ≤ c →
        (ub : ℕ∞) < dtwWin dm w i k) →
      (∀ k, nse ≤ k → k < j0 → 1 ≤ k → (ub : ℕ∞) < dtwWin dm w i k) →
      1 ≤ nse →
      (∀ k, 1 ≤ k → k ≤ c →
        dtwWin dm w i k ≤
          (innerLoop dm ub se i (List.range' j0 n) D ss below nse cs).1 i k ∧
        (dtwWin dm w i k ≤ (ub : ℕ∞) →
          (innerLoop dm ub se i (List.range' j0 n) D ss below nse cs).1 i k =
            dtwWin dm w i k)) ∧
      (∀ k, 1 ≤ k →
        k < (innerLoop dm ub se i (List.range' j0 n) D ss below nse cs).2.1 →
        k ≤ c → (ub : ℕ∞) < dtwWin dm w i k) ∧
      (∀ k, (innerLoop dm ub se i (List.range' j0 n) D ss below nse cs).2.2.1 ≤ k →
        k ≤ c → 1 ≤ k → (ub : ℕ∞) < dtwWin dm w i k) ∧
      1 ≤ (innerLoop dm ub se i (List.range' j0 n) D ss below nse cs).2.2.1 := by
  intro n
  induction n with
  | zero =>
    intro j0 D ss below nse cs hj01 hj0n Hband Hbeyond Hsk0 Hcol Hprev Hpreveq
      Hse Hdone Hun Hssinv Hssf Hnse Hnse1
    simp only [List.range'_zero, innerLoop]
    refine ⟨?_, Hssinv, ?_, Hnse1⟩
    · intro k hk1 hkc
      rcases Nat.lt_or_ge k j0 with hlt | hge
      · exact Hdone k hk1 hlt
      · refine ⟨by rw [Hun k hge]; exact le_top, fun hub => ?_⟩
        exact absurd hub (not_le.mpr (Hbeyond k (by omega) hkc))
    · intro k hk hkc hk1
      rcases Nat.lt_or_ge k j0 with hlt | hge
      · exact Hnse k hk hlt hk1
      · exact Hbeyond k (by omega) hkc
  | succ n ih =>
    intro j0 D ss below nse cs hj01 hj0n Hband Hbeyond Hsk0 Hcol Hprev Hpreveq
      Hse Hdone Hun Hssinv Hssf Hnse Hnse1
    have hj0je : j0 ≤ je := by omega
    have hj0c : j0 ≤ c := by omega
    -- previous-row and current-row comparison facts including column 0
    have hpged : ∀ k, k ≤ c → dtwWin dm w (i-1) k ≤ D (i-1) k := by
      intro k hk
      rcases Nat.eq_zero_or_pos k with rfl | hk1
      · rcases Nat.eq_zero_or_pos (i-1) with hiz | hip
        · rw [hiz, Hsk0 0]
        · rw [Hcol (i-1) hip]
          exact le_top
      · exact Hprev k hk1 hk
    have hpeq : ∀ k, k ≤ c → dtwWin dm w (i-1) k ≤ (ub : ℕ∞) →
        D (i-1) k = dtwWin dm w (i-1) k := by
      intro k hk hub
      rcases Nat.eq_zero_or_pos k with rfl | hk1
      · rcases Nat.eq_zero_or_pos (i-1) with hiz | hip
        · rw [hiz, Hsk0 0]
        · exfalso
          rw [dtwWin_col_zero_of_pos dm w (i-1) hip] at hub
          exact not_top_le_ub ub hub
      · exact Hpreveq k hk1 hk hub
    have hrowged : ∀ k, k < j0 → dtwWin dm w i k ≤ D i k := by
      intro k hk
      rcases Nat.eq_zero_or_pos k with rfl | hk1
      · rw [Hcol i hi]; exact le_top
      · exact (Hdone k hk1 hk).1
    have hroweq : ∀ k, k < j0 → dtwWin dm w i k ≤ (ub : ℕ∞) →
        D i k = dtwWin dm w i k := by
      intro k hk hub
      rcases Nat.eq_zero_or_pos k with rfl | hk1
      · exfalso
        rw [dtwWin_col_zero_of_pos dm w i hi] at hub
        exact not_top_le_ub ub hub
      · exact (Hdone k hk1 hk).2 hub
    -- the scanned cell is inside the band, so the recurrence applies
    have hbj0 := Hband j0 le_rfl hj0je
    -- the three central facts about the freshly computed value
    have hE1 : dtwWin dm w i j0 ≤ cellVal dm D i j0 := by
      rw [dtwWin_rec dm w i j0 hi hj01 hbj0.1 hbj0.2]
      unfold cellVal
      exact add_le_add_left
        (min3_mono (hpged (j0-1) (by omega)) (hpged j0 hj0c)
          (hrowged (j0-1) (by omega))) _
    have hE2 : dtwWin dm w i j0 ≤ (ub : ℕ∞) →
        cellVal dm D i j0 = dtwWin dm w i j0 := by
      intro hub
      refine le_antisymm ?_ hE1
      have hub2 := hub
      rw [dtwWin_rec dm w i j0 hi hj01 hbj0.1 hbj0.2] at hub2 ⊢
      unfold cellVal
      refine add_le_add_left ?_ _
      have hm_ub : min3 (dtwWin dm w (i-1) (j0-1)) (dtwWin dm w (i-1) j0)
          (dtwWin dm w i (j0-1)) ≤ (ub : ℕ∞) := le_trans le_add_self hub2
      rcases min3_cases (dtwWin dm w (i-1) (j0-1)) (dtwWin dm w (i-1) j0)
          (dtwWin dm w i (j0-1)) with hc1 | hc2 | hc3
      · rw [hc1]
        rw [hc1] at hm_ub
        calc min3 (D (i-1) (j0-1)) (D (i-1) j0) (D i (j0-1)) ≤ D (i-1) (j0-1) :=
              min3_le_left _ _ _
          _ = dtwWin dm w (i-1) (j0-1) := hpeq (j0-1) (by omega) hm_ub
      · rw [hc2]
        rw [hc2] at hm_ub
        calc min3 (D (i-1) (j0-1)) (D (i-1) j0) (D i (j0-1)) ≤ D (i-1) j0 :=
              min3_le_mid _ _ _
          _ = dtwWin dm w (i-1) j0 := hpeq j0 hj0c hm_ub
      · rw [hc3]
        rw [hc3] at hm_ub
        calc min3 (D (i-1) (j0-1)) (D (i-1) j0) (D i (j0-1)) ≤ D i (j0-1) :=
              min3_le_right _ _ _
          _ = dtwWin dm w i (j0-1) := hroweq (j0-1) (by omega) hm_ub
    have hE3 : (ub : ℕ∞) < cellVal dm D i j0 → (ub : ℕ∞) < dtwWin dm w i j0 := by
      intro hv
      by_contra hcon
      push_neg at hcon
      rw [hE2 hcon] at hv
      exact absurd hv (not_lt.mpr hcon)
    -- the updated matrix
    set D2 : Mat := matUpd D i j0 (cellVal dm D i j0) with hD2
    have hD2ij : D2 i j0 = cellVal dm D i j0 := by
      rw [hD2]
      unfold matUpd
      rw [if_pos ⟨rfl, rfl⟩]
    have hD2other : ∀ a b, ¬ (a = i ∧ b = j0) → D2 a b = D a b := by
      intro a b h
      rw [hD2]
      unfold matUpd
      rw [if_neg h]
    -- hypotheses of the recursive call that do not depend on the branch
    have Hsk0' : ∀ b, D2 0 b = dtwWin dm w 0 b := by
      intro b
      rw [hD2other 0 b (by intro h; omega)]
      exact Hsk0 b
    have Hcol' : ∀ a, 1 ≤ a → D2 a 0 = ⊤ := by
      intro a ha
      rw [hD2other a 0 (by intro h; omega)]
      exact Hcol a ha
    have Hprev' : ∀ k, 1 ≤ k → k ≤ c → dtwWin dm w (i-1) k ≤ D2 (i-1) k := by
      intro k hk1 hkc
      rw [hD2other (i-1) k (by intro h; omega)]
      exact Hprev k hk1 hkc
    have Hpreveq' : ∀ k, 1 ≤ k → k ≤ c → dtwWin dm w (i-1) k ≤ (ub : ℕ∞) →
        D2 (i-1) k = dtwWin dm w (i-1) k := by
      intro k hk1 hkc hub
      rw [hD2other (i-1) k (by intro h; omega)]
      exact Hpreveq k hk1 hkc hub
    have Hdone' : ∀ k, 1 ≤ k → k < j0 + 1 → dtwWin dm w i k ≤ D2 i k ∧
        (dtwWin dm w i k ≤ (ub : ℕ∞) → D2 i k = dtwWin dm w i k) := by
      intro k hk1 hk
      rcases Nat.lt_or_ge k j0 with hlt | hge
      · rw [hD2other i k (by intro h; omega)]
        exact Hdone k hk1 hlt
      · have : k = j0 := by omega
        subst this
        rw [hD2ij]
        exact ⟨hE1, hE2⟩
    have Hun' : ∀ k, j0 + 1 ≤ k → D2 i k = ⊤ := by
      intro k hk
      rw [hD2other i k (by intro h; omega)]
      exact Hun k (by omega)
    have Hband' : ∀ k, j0 + 1 ≤ k → k ≤ je →
        (i : ℤ) - w ≤ (k : ℤ) ∧ (k : ℤ) ≤ (i : ℤ) + w :=
      fun k hk hke => Hband k (by omega) hke
    rw [List.range'_succ, innerLoop]
    by_cases hvlt : (ub : ℕ∞) < cellVal dm D i j0
    · rw [if_pos hvlt]
      have hFj0 : (ub : ℕ∞) < dtwWin dm w i j0 := hE3 hvlt
      have Hssinv2 : ∀ k, 1 ≤ k → k < (if below then ss else j0 + 1) →
          k ≤ c → (ub : ℕ∞) < dtwWin dm w i k := by
        cases below with
        | true =>
          intro k hk1 hk hkc
          rw [if_pos rfl] at hk
          exact Hssinv k hk1 hk hkc
        | false =>
          intro k hk1 hk hkc
          rw [if_neg (by simp)] at hk
          rcases Nat.lt_or_ge k j0 with hlt | hge
          · exact Hssf rfl k hk1 hlt hkc
          · have hkj : k = j0 := by omega
            subst hkj
            exact hFj0
      have Hssf2 : below = false → ∀ k, 1 ≤ k → k < j0 + 1 → k ≤ c →
          (ub : ℕ∞) < dtwWin dm w i k := by
        intro hb k hk1 hk hkc
        rcases Nat.lt_or_ge k j0 with hlt | hge
        · exact Hssf hb k hk1 hlt hkc
        · have hkj : k = j0 := by omega
          subst hkj
          exact hFj0
      by_cases hse : se ≤ j0
      · rw [if_pos hse, ← hD2]
        have hchain : ∀ k, j0 ≤ k → k ≤ c → (ub : ℕ∞) < dtwWin dm w i k :=
          ub_lt_chain_rowW dm w ub c i j0 hi hj01 hFj0
            (fun k hk hkc => Hse k (by omega) hkc)
        refine ⟨?_, ?_, ?_, ?_⟩
        · intro k hk1 hkc
          simp only
          rcases Nat.lt_or_ge k j0 with hlt | hge
          · rw [hD2other i k (by intro h; omega)]
            exact Hdone k hk1 hlt
          · rcases Nat.eq_or_lt_of_le hge with rfl | hgt
            · rw [hD2ij]
              exact ⟨hE1, hE2⟩
            · rw [hD2other i k (by intro h; omega), Hun k (by omega)]
              refine ⟨le_top, fun hub =>
                absurd hub (not_le.mpr (hchain k (by omega) hkc))⟩
        · intro k hk1 hk hkc
          exact Hssinv2 k hk1 hk hkc
        · intro k hk hkc hk1
          simp only at hk
          rcases Nat.lt_or_ge k j0 with hlt | hge
          · exact Hnse k hk hlt hk1
          · exact hchain k hge hkc
        · exact Hnse1
      · rw [if_neg hse]
        refine ih (j0+1) D2 (if below then ss else j0 + 1) below nse
          (cs ++ [(i, j0)]) (by omega) (by omega) Hband' Hbeyond Hsk0' Hcol'
          Hprev' Hpreveq' Hse Hdone' Hun' Hssinv2 Hssf2 ?_ Hnse1
        intro k hk hkj0 hk1
        rcases Nat.lt_or_ge k j0 with hlt | hge
        · exact Hnse k hk hlt hk1
        · have : k = j0 := by omega
          subst this
          exact hFj0
    · rw [if_neg hvlt]
      refine ih (j0+1) D2 ss true (j0+1) (cs ++ [(i, j0)])
        (by omega) (by omega) Hband' Hbeyond Hsk0' Hcol' Hprev' Hpreveq' Hse
        Hdone' Hun' Hssinv ?_ ?_ (by omega)
      · intro hb
        exact absurd hb (by simp)
      · intro k hk hkj0 hk1
        omega

/-- Windowed exactness of the pruned row loop for any nonnegative
window: processing rows `i+1 .. r` starting from a state whose
invariants hold at row `i` yields a final row `r` that agrees with the
windowed recurrence wherever the latter is below the upper bound. -/
theorem rowsLoop_pruneW (dm : ℕ → ℕ → ℕ) (ub c : ℕ) (w : ℤ) (r : ℕ)
    (hw : 0 ≤ w) :
    ∀ (m i : ℕ) (D : Mat) (ss se : ℕ) (cs : List (ℕ × ℕ)),
      i + m = r →
      (∀ b, D 0 b = dtwWin dm w 0 b) →
      (∀ a, 1 ≤ a → D a 0 = ⊤) →
      (∀ k, 1 ≤ k → k ≤ c → dtwWin dm w i k ≤ D i k ∧
        (dtwWin dm w i k ≤ (ub : ℕ∞) → D i k = dtwWin dm w i k)) →
      1 ≤ ss → ss ≤ c + 1 →
      (∀ k, 1 ≤ k → k < ss → k ≤ c → (ub : ℕ∞) < dtwWin dm w i k) →
      (i = 0 → ss = 1) →
      1 ≤ se →
      (∀ k, se ≤ k → k ≤ c → (ub : ℕ∞) < dtwWin dm w i k) →
      (∀ a b, i < a → D a b = ⊤) →
      ∀ k, 1 ≤ k → k ≤ c →
        dtwWin dm w r k ≤
          (rowsLoop dm ub c w (List.range' (i+1) m) D ss se cs).1 r k ∧
        (dtwWin dm w r k ≤ (ub : ℕ∞) →
          (rowsLoop dm ub c w (List.range' (i+1) m) D ss se cs).1 r k =
            dtwWin dm w r k) := by
  intro m
  induction m with
  | zero =>
    intro i D ss se cs hir _ _ Grow _ _ _ _ _ _ _ k hk1 hkc
    have : i = r := by omega
    subst this
    simpa [List.range'_zero, rowsLoop] using Grow k hk1 hkc
  | succ m ih =>
    intro i D ss se cs hir G1 G2 Grow hss1 hssc Gss Gss0 hse1 Gse Grest k hk1 hkc
    have hi1r : i + 1 ≤ r := by omega
    rw [List.range'_succ, rowsLoop]
    -- the above-bound stripe left of `search_start`, lifted to row i+1
    have hsspre : ∀ k2, 1 ≤ k2 → k2 < ss → k2 ≤ c →
        (ub : ℕ∞) < dtwWin dm w (i+1) k2 := by
      rcases Nat.eq_zero_or_pos i with rfl | hip
      · intro k2 hk21 hk2s _
        rw [Gss0 rfl] at hk2s
        omega
      · exact ub_lt_chain_colW dm w ub c i ss hip Gss
    set jbn : ℕ := max ss (((i+1 : ℕ) : ℤ) - w).toNat with hjbn
    set jez : ℤ := min (((i+1 : ℕ) : ℤ) + w) (c : ℤ) with hjez
    have hjez0 : 0 ≤ jez := by
      rw [hjez]
      exact le_min (by omega) (Int.natCast_nonneg c)
    set jeN : ℕ := jez.toNat with hjeN
    have hjeNz : (jeN : ℤ) = jez := by
      rw [hjeN]
      exact Int.toNat_of_nonneg hjez0
    have hjezc : jez ≤ (c : ℤ) := by rw [hjez]; exact min_le_right _ _
    have hjezw : jez ≤ ((i+1 : ℕ) : ℤ) + w := by rw [hjez]; exact min_le_left _ _
    have hjeNc : jeN ≤ c := by omega
    have htb : (((i+1 : ℕ) : ℤ) - w) ≤ (((((i+1 : ℕ) : ℤ) - w).toNat : ℕ) : ℤ) :=
      Int.self_le_toNat _
    have hjbnt : ((((i+1 : ℕ) : ℤ) - w).toNat : ℕ) ≤ jbn := by
      rw [hjbn]; exact Nat.le_max_right ss _
    have hjbnss : ss ≤ jbn := by rw [hjbn]; exact Nat.le_max_left ss _
    have hjbn1 : 1 ≤ jbn := le_trans hss1 hjbnss
    -- cells beyond the band end exceed the bound (they are out of band)
    have hbeyond : ∀ k2, jeN < k2 → k2 ≤ c → (ub : ℕ∞) < dtwWin dm w (i+1) k2 := by
      intro k2 hk2 hk2c
      have hout : ¬ (((i+1 : ℕ) : ℤ) - w ≤ (k2 : ℤ) ∧
          (k2 : ℤ) ≤ ((i+1 : ℕ) : ℤ) + w) := by
        intro hb
        have hk2z : (k2 : ℤ) ≤ jez := by
          rw [hjez]
          exact le_min hb.2 (by exact_mod_cast hk2c)
        omega
      rw [dtwWin_out dm w (i+1) k2 (by omega) (by omega) hout]
      exact WithTop.coe_lt_top ub
    -- cells skipped left of the scan start exceed the bound
    have hleft : ∀ k2, 1 ≤ k2 → k2 < jbn → k2 ≤ c →
        (ub : ℕ∞) < dtwWin dm w (i+1) k2 := by
      intro k2 hk21 hk2 hk2c
      rcases Nat.lt_or_ge k2 ss with hlt | hge
      · exact hsspre k2 hk21 hlt hk2c
      · have hk2t : k2 < ((((i+1 : ℕ) : ℤ) - w).toNat : ℕ) := by omega
        have hout : ¬ (((i+1 : ℕ) : ℤ) - w ≤ (k2 : ℤ) ∧
            (k2 : ℤ) ≤ ((i+1 : ℕ) : ℤ) + w) := by
          intro hb
          omega
        rw [dtwWin_out dm w (i+1) k2 (by omega) (by omega) hout]
        exact WithTop.coe_lt_top ub
    by_cases hne : jbn ≤ jeN
    · -- nonempty scan: the inner windowed exactness lemma applies
      have hlen : ((jez + 1 - (jbn : ℤ)).toNat : ℕ) = jeN + 1 - jbn := by omega
      rw [hlen]
      have hinner := innerLoop_pruneW dm w ub c se (i+1) jeN (by omega) hjeNc
        (jeN + 1 - jbn) jbn D ss false (i+1) cs hjbn1 (by omega)
        (by
          intro k2 hk2a hk2b
          constructor
          · omega
          · omega)
        hbeyond G1 G2
        (by
          intro k2 hk21 hk2c
          have hieq : i + 1 - 1 = i := by omega
          rw [hieq]
          exact (Grow k2 hk21 hk2c).1)
        (by
          intro k2 hk21 hk2c hub
          have hieq : i + 1 - 1 = i := by omega
          rw [hieq]
          exact (Grow k2 hk21 hk2c).2 hub)
        (by
          intro k2 hk2 hk2c
          have hieq : i + 1 - 1 = i := by omega
          rw [hieq]
          exact Gse k2 hk2 hk2c)
        (by
          intro k2 hk21 hk2s
          refine ⟨by rw [Grest (i+1) k2 (by omega)]; exact le_top, fun hub => ?_⟩
          exact absurd hub (not_le.mpr (hleft k2 hk21 hk2s (by omega))))
        (fun k2 _ => Grest (i+1) k2 (by omega))
        hsspre
        (fun _ => fun k2 hk21 hk2 hk2c => hleft k2 hk21 hk2 hk2c)
        (by
          intro k2 hk2a hk2b hk21
          exact hleft k2 hk21 hk2b (by omega))
        (by omega)
      obtain ⟨ws1, -, hwcells, hwconf, -⟩ :=
        innerLoop_writes dm ub se (i+1) (by omega)
          (List.range' jbn (jeN + 1 - jbn)) D ss false (i+1) cs
          (range'_pairwise_lt _ _)
          (by
            intro x hx
            rw [List.mem_range'] at hx
            omega)
      have hsspos := innerLoop_ss_pos dm ub se (i+1)
        (List.range' jbn (jeN + 1 - jbn)) D ss false (i+1) cs hss1
      have hssle := innerLoop_ss_le dm ub se (i+1) c
        (List.range' jbn (jeN + 1 - jbn)) D ss false (i+1) cs
        (by
          intro x hx
          rw [List.mem_range'] at hx
          omega)
        (by omega)
      rcases hR1 : innerLoop dm ub se (i+1) (List.range' jbn (jeN + 1 - jbn)) D ss
          false (i+1) cs with ⟨D2, ss2, nse2, cs2⟩
      rw [hR1] at hinner hwconf hsspos hssle
      dsimp only at hinner hwconf hsspos hssle ⊢
      obtain ⟨Cval, Css, Cnse, Cnse1⟩ := hinner
      have hnotws : ∀ a b, a ≠ i + 1 → (a, b) ∉ ws1 := by
        intro a b ha hmem
        exact ha (hwcells (a, b) hmem).1
      have hnotws0 : ∀ a, (a, 0) ∉ ws1 := by
        intro a hmem
        have := (hwcells (a, 0) hmem).2
        rw [List.mem_range'] at this
        omega
      refine ih (i+1) D2 ss2 nse2 cs2 (by omega)
        (fun b => by rw [hwconf 0 b (hnotws 0 b (by omega))]; exact G1 b)
        (fun a ha => by rw [hwconf a 0 (hnotws0 a)]; exact G2 a ha)
        Cval hsspos hssle Css (by omega) Cnse1
        (fun k2 hk2 hk2c => Cnse k2 hk2 hk2c (by omega))
        (fun a b ha => by
          rw [hwconf a b (hnotws a b (by omega))]
          exact Grest a b (by omega))
        k hk1 hkc
    · -- empty scan: the row is skipped entirely and every in-range cell
      -- of row i+1 is out of band or left of the old stripe
      have hlen0 : ((jez + 1 - (jbn : ℤ)).toNat : ℕ) = 0 := by omega
      rw [hlen0, List.range'_zero, innerLoop]
      have hallk : ∀ k2, 1 ≤ k2 → k2 ≤ c → (ub : ℕ∞) < dtwWin dm w (i+1) k2 := by
        intro k2 hk21 hk2c
        rcases Nat.lt_or_ge k2 jbn with hlt | hge
        · exact hleft k2 hk21 hlt hk2c
        · exact hbeyond k2 (by omega) hk2c
      refine ih (i+1) D ss (i+1) cs (by omega) G1 G2
        (by
          intro k2 hk21 hk2c
          refine ⟨by rw [Grest (i+1) k2 (by omega)]; exact le_top, fun hub => ?_⟩
          exact absurd hub (not_le.mpr (hallk k2 hk21 hk2c)))
        hss1 hssc
        (fun k2 hk21 hk2s hk2c => hallk k2 hk21 hk2c)
        (by omega)
        (by omega)
        (fun k2 hk2 hk2c => hallk k2 (by omega) hk2c)
        (fun a b ha => Grest a b (by omega))
        k hk1 hkc

/-- Windowed exactness at the level of the raw run: for any nonnegative
window, when the zip upper bound dominates the windowed optimum the
pruned builder's final cell equals the windowed (band-restricted,
pruning-free) recurrence. -/
theorem pruned_final_exactW (dm : ℕ → ℕ → ℕ) (ub c r : ℕ) (w : ℤ)
    (hw : 0 ≤ w) (hub : dtwWin dm w r c ≤ (ub : ℕ∞)) :
    (rowsLoop dm ub c w (List.range' 1 r) initMat 1 1 []).1 r c =
      dtwWin dm w r c := by
  rcases Nat.eq_zero_or_pos r with rfl | hr1
  · rcases Nat.eq_zero_or_pos c with rfl | hc1
    · simp only [List.range'_zero, rowsLoop]
      rfl
    · exfalso
      rw [dtwWin_row_zero_of_pos dm w c hc1] at hub
      exact not_top_le_ub ub hub
  · rcases Nat.eq_zero_or_pos c with rfl | hc1
    · exfalso
      rw [dtwWin_col_zero_of_pos dm w r hr1] at hub
      exact not_top_le_ub ub hub
    · have hG1 : ∀ b, initMat 0 b = dtwWin dm w 0 b := by
        intro b
        cases b with
        | zero => rfl
        | succ b =>
          rw [dtwWin_row_zero dm w b]
          unfold initMat
          rw [if_neg (by intro h; omega)]
      have hG2 : ∀ a, 1 ≤ a → initMat a 0 = ⊤ := by
        intro a ha
        unfold initMat
        rw [if_neg (by intro h; omega)]
      have hGrow : ∀ k, 1 ≤ k → k ≤ c → dtwWin dm w 0 k ≤ initMat 0 k ∧
          (dtwWin dm w 0 k ≤ (ub : ℕ∞) → initMat 0 k = dtwWin dm w 0 k) := by
        intro k hk1 _
        rw [← hG1 k]
        exact ⟨le_refl _, fun _ => rfl⟩
      have hGse : ∀ k, 1 ≤ k → k ≤ c → (ub : ℕ∞) < dtwWin dm w 0 k := by
        intro k hk1 _
        rw [dtwWin_row_zero_of_pos dm w k hk1]
        exact WithTop.coe_lt_top ub
      have hGrest : ∀ a b, 0 < a → initMat a b = ⊤ := by
        intro a b ha
        unfold initMat
        rw [if_neg (by intro h; omega)]
      exact (rowsLoop_pruneW dm ub c w r hw r 0 initMat 1 1 [] (by omega)
        hG1 hG2 hGrow (le_refl 1) (by omega) (by intro k hk1 hk _; omega)
        (fun _ => rfl) (le_refl 1) hGse hGrest c hc1 (le_refl c)).2 hub

/-- For equal-length inputs and a nonnegative window the zip upper bound
dominates the windowed optimum (the zip diagonal lies inside the
band). -/
theorem dtwWin_le_upperBound_of_eq_length [Inhabited α] (t1 t2 : List α)
    (d : α → α → ℕ) (w : ℤ) (hw : 0 ≤ w) (hlen : t1.length = t2.length) :
    dtwWin (distMat t1 t2 d) w t1.length t2.length ≤
      (upperBound t1 t2 d : ℕ∞) := by
  rw [upperBound_eq_range_sum d t1 t2, ← hlen, min_self]
  have hd := dtwWin_diag_le_sum (distMat t1 t2 d) w hw t1.length
  calc dtwWin (distMat t1 t2 d) w t1.length t1.length
      ≤ (((List.range t1.length).map
          (fun k => distMat t1 t2 d (k+1) (k+1))).sum : ℕ) := hd
    _ = (((List.range t1.length).map
          (fun k => d (t1.getD k default) (t2.getD k default))).sum : ℕ) := rfl

/-- C9 counterexample: on the 6-against-3 instance with element distance
`dC9` (zip upper bound 2), the builder's final cell at window 3 is the
finite cost 3, but at the wider window 4 it is `+∞`: the final cost
increases when the window grows, refuting monotonicity. -/
theorem C9_counterexample :
    (3 : ℤ) ≤ (4 : ℤ) ∧
    dtw_helper T1c9 T2c9 dC9 3 T1c9.length T2c9.length = (3 : ℕ∞) ∧
    dtw_helper T1c9 T2c9 dC9 4 T1c9.length T2c9.length = ⊤ ∧
    dtw_helper T1c9 T2c9 dC9 3 T1c9.length T2c9.length <
      dtw_helper T1c9 T2c9 dC9 4 T1c9.length T2c9.length := by
  refine ⟨by decide, rfl, rfl, ?_⟩
  have h1 : dtw_helper T1c9 T2c9 dC9 3 T1c9.length T2c9.length = (3 : ℕ∞) := rfl
  have h2 : dtw_helper T1c9 T2c9 dC9 4 T1c9.length T2c9.length = ⊤ := rfl
  rw [h1, h2]
  decide

/-- C9 (amended): for sequences of EQUAL length the final cost is
monotonically non-increasing in `time_warp_window`: for windows
`w1 ≤ w2` the final cell at `w2` is at most the final cell at `w1`.
(As originally stated, for all input pairs, the claim is false: with
unequal lengths a wider window can change the pruning decisions so that
the final cost increases, even from a finite value to `+∞` — see the
counterexample.) -/
theorem C9_window_monotonicity [Inhabited α] (t1 t2 : List α)
    (d : α → α → ℕ) (w1 w2 : ℤ) (hw : w1 ≤ w2)
    (hlen : t1.length = t2.length) :
    dtw_helper t1 t2 d w2 t1.length t2.length ≤
      dtw_helper t1 t2 d w1 t1.length t2.length := by
  by_cases hw1 : 0 ≤ w1
  · have hw2 : 0 ≤ w2 := le_trans hw1 hw
    have hub1 := dtwWin_le_upperBound_of_eq_length t1 t2 d w1 hw1 hlen
    have hub2 := dtwWin_le_upperBound_of_eq_length t1 t2 d w2 hw2 hlen
    have he1 : dtw_helper t1 t2 d w1 t1.length t2.length =
        dtwWin (distMat t1 t2 d) w1 t1.length t2.length := by
      unfold dtw_helper buildRun
      exact pruned_final_exactW (distMat t1 t2 d) (upperBound t1 t2 d)
        t2.length t1.length w1 hw1 hub1
    have he2 : dtw_helper t1 t2 d w2 t1.length t2.length =
        dtwWin (distMat t1 t2 d) w2 t1.length t2.length := by
      unfold dtw_helper buildRun
      exact pruned_final_exactW (distMat t1 t2 d) (upperBound t1 t2 d)
        t2.length t1.length w2 hw2 hub2
    rw [he1, he2]
    exact dtwWin_mono_window (distMat t1 t2 d) hw t1.length t2.length
  · push_neg at hw1
    rw [dtw_helper_neg_window t1 t2 d w1 hw1]
    rcases Nat.eq_zero_or_pos t1.length with h0 | hp
    · have h2 : dtw_helper t1 t2 d w2 = initMat := by
        unfold dtw_helper buildRun
        rw [h0]
        rfl
      rw [h2]
    · have htop : initMat t1.length t2.length = ⊤ := by
        unfold initMat
        rw [if_neg (by intro h; omega)]
      rw [htop]
      exact le_top

/-- C9 witness: on the equal-length pair `[5]`, `[7]` with windows
`0 ≤ 1`, the final cell at the wider window is at most the final cell at
the narrower one. -/
theorem C9_window_monotonicity_witness :
    dtw_helper ([5] : List ℤ) ([7] : List ℤ) euclian_distance 1 1 1 ≤
      dtw_helper ([5] : List ℤ) ([7] : List ℤ) euclian_distance 0 1 1 :=
  C9_window_monotonicity [5] [7] euclian_distance 0 1 (by decide) rfl
